import Mathlib

/-!
Verification development for the `creedsolo.pyx` Reed-Solomon codec.

The first part of this file is a shallow embedding of the source: every
function below mirrors the control flow of the corresponding Cython
function.  Symbols are modelled as `ℕ` (the source stores them in
`uint8_t` buffers; on every reachable path of the modelled code the
values stay below `2 ^ c_exp ≤ 256`, so no wrap-around is lost).
Python exceptions are modelled with `Except RSError`.  Mutation of a
local `bytearray` is modelled by explicit state passing (`List.set` /
`foldl`); reads `a[i]` are modelled with `List.getD i 0` (all reachable
reads are in bounds).  Python slice conventions (`msg[:-nsym]`,
negative indices with wrap-around) are modelled explicitly where the
source relies on them.

The second part interprets the GF(2^8) table arithmetic inside the
quotient ring `(ZMod 2)[X] / (prim)` and proves the claims.
-/

set_option maxRecDepth 4000
set_option maxHeartbeats 4000000

namespace Creedsolo

/-- Error kinds raised by the source.  The source raises Python
exceptions (`ReedSolomonError` with a message, `ValueError`,
`ZeroDivisionError`); we model each distinct raise site by a
constructor.  `messageTooLong` and `divideByZero` correspond to
`ValueError` / `ZeroDivisionError`, everything else to
`ReedSolomonError`. -/
inductive RSError where
  | messageTooLong
  | divideByZero
  | tooManyErasures
  | tooManyErrors
  | chienMismatch
  | forneyDegenerate
  | uncorrectableResidual
  | singletonExceeded
  deriving DecidableEq, Repr

/-- Which modelled exceptions correspond to the source `ReedSolomonError`
class (as opposed to `ValueError` / `ZeroDivisionError`). -/
def RSError.isReedSolomonError : RSError → Bool
  | .messageTooLong => false
  | .divideByZero => false
  | _ => true

deriving instance DecidableEq for Except

/-- Embedding of `gf_mult_noLUT` (Russian peasant multiplication with
interleaved reduction by `prim`).  The source mutates `x`, `y`, `r` in a
while loop; we pass them explicitly.  `y >> 1` is `y / 2`, `x << 1` is
`2 * x`, `y & 1 = 1` is `y % 2 = 1` (the source comments state these
equivalences). -/
def gf_mult_noLUT_loop (prim fieldCharacFull : ℕ) (carryless : Bool) :
    ℕ → ℕ → ℕ → ℕ → ℕ
  | 0, _x, _y, r => r
  | fuel + 1, x, y, r =>
    if y = 0 then r
    else
      let r2 := if y % 2 = 1 then (if carryless then r ^^^ x else r + x) else r
      let x2 := 2 * x
      let x3 := if 0 < prim ∧ x2 &&& fieldCharacFull ≠ 0 then x2 ^^^ prim else x2
      gf_mult_noLUT_loop prim fieldCharacFull carryless fuel x3 (y / 2) r2

/-- `y` strictly halves at every iteration of the `while y:` loop, so
`y` iterations always suffice; the explicit fuel (first loop argument)
only makes the recursion structural. -/
def gf_mult_noLUT (x y prim fieldCharacFull : ℕ) (carryless : Bool) : ℕ :=
  gf_mult_noLUT_loop prim fieldCharacFull carryless y x y 0

/-- The fuel argument is irrelevant as soon as it is at least `y`. -/
theorem gf_mult_noLUT_loop_fuel (prim fcf : ℕ) (cl : Bool) :
    ∀ fuel fuel' x y r, y ≤ fuel → y ≤ fuel' →
      gf_mult_noLUT_loop prim fcf cl fuel x y r
        = gf_mult_noLUT_loop prim fcf cl fuel' x y r := by
  intro fuel
  induction fuel using Nat.strong_induction_on with
  | _ fuel ih =>
    intro fuel' x y r hy hy'
    match fuel, fuel' with
    | 0, 0 => rfl
    | 0, f' + 1 =>
        interval_cases y
        simp [gf_mult_noLUT_loop]
    | f + 1, 0 =>
        interval_cases y
        simp [gf_mult_noLUT_loop]
    | f + 1, f' + 1 =>
        simp only [gf_mult_noLUT_loop]
        by_cases h0 : y = 0
        · simp [h0]
        · simp only [h0, if_false]
          exact ih f (by omega) f' _ _ _ (by omega) (by omega)

/-- The global table state of the source (`gf_log`, `gf_exp`,
`field_charac`), passed explicitly. -/
structure GFTables where
  log : List ℕ
  exp : List ℕ
  charac : ℕ
  deriving DecidableEq, Repr

/-- The body of the main loop of `init_tables`: state is
`(gf_exp, gf_log, x)`; iteration `i` performs `gf_exp[i] = x;
gf_log[x] = i; x = gf_mult_noLUT(x, generator, prim, field_charac+1)`. -/
def init_tables_step (prim generator c_exp : ℕ) (st : List ℕ × List ℕ × ℕ) (i : ℕ) :
    List ℕ × List ℕ × ℕ :=
  (st.1.set i st.2.2, st.2.1.set st.2.2 i,
    gf_mult_noLUT st.2.2 generator prim (2 ^ c_exp - 1 + 1) true)

/-- Embedding of `init_tables(prim, generator, c_exp)`: one loop builds
`gf_exp`/`gf_log` while stepping `x` by `gf_mult_noLUT(x, generator,
prim, field_charac + 1)`, a second loop doubles the `exp` table. -/
def init_tables (prim generator c_exp : ℕ) : GFTables :=
  let charac := 2 ^ c_exp - 1
  let st := (List.range charac).foldl (init_tables_step prim generator c_exp)
    (List.replicate (charac * 2) 0, List.replicate (charac + 1) 0, 1)
  let expD := (List.range charac).foldl
    (fun (e : List ℕ) i => e.set (charac + i) (e.getD i 0)) st.1
  { log := st.2.1, exp := expD, charac := charac }

def gf_add (x y : ℕ) : ℕ := x ^^^ y

def gf_sub (x y : ℕ) : ℕ := x ^^^ y

def gf_neg (x : ℕ) : ℕ := x

/-- `gf_inverse(x) = gf_exp[field_charac - gf_log[x]]`. -/
def gf_inverse (gf : GFTables) (x : ℕ) : ℕ :=
  gf.exp.getD (gf.charac - gf.log.getD x 0) 0

/-- `gf_mul`: note the source version reduces `lx + ly` mod
`field_charac` (it does not rely on the doubled table here). -/
def gf_mul (gf : GFTables) (x y : ℕ) : ℕ :=
  if x = 0 ∨ y = 0 then 0
  else gf.exp.getD ((gf.log.getD x 0 + gf.log.getD y 0) % gf.charac) 0

/-- `gf_div`.  `gf_log[x] + field_charac - gf_log[y]` is evaluated in
C `int` arithmetic; since table contents are `< charac` on every
reachable path the `ℕ` subtraction below agrees with it. -/
def gf_div (gf : GFTables) (x y : ℕ) : Except RSError ℕ :=
  if y = 0 then .error .divideByZero
  else if x = 0 then .ok 0
  else .ok (gf.exp.getD ((gf.log.getD x 0 + gf.charac - gf.log.getD y 0) % gf.charac) 0)

/-- `gf_pow(x, power)`: the function is compiled with Python division
semantics (`@cython.cdivision(False)`), so the modulo of the possibly
negative product is the always-nonnegative Python one, i.e. `Int.emod`. -/
def gf_pow (gf : GFTables) (x : ℕ) (power : ℤ) : ℕ :=
  gf.exp.getD (((gf.log.getD x 0 : ℤ) * power).emod (gf.charac : ℤ)).toNat 0

/-- `gf_poly_scale`. -/
def gf_poly_scale (gf : GFTables) (p : List ℕ) (x : ℕ) : List ℕ :=
  p.map (fun c => gf_mul gf c x)

/-- `gf_poly_add`: right-aligned XOR (no table use). -/
def gf_poly_add (p q : List ℕ) : List ℕ :=
  let n := max p.length q.length
  let r := List.replicate (n - p.length) 0 ++ p
  (List.range q.length).foldl
    (fun (r : List ℕ) i => r.set (i + n - q.length) (r.getD (i + n - q.length) 0 ^^^ q.getD i 0)) r

/-- `gf_poly_mul` (precomputed logs of `p`, zero coefficients skipped,
accumulation through the doubled `exp` table). -/
def gf_poly_mul (gf : GFTables) (p q : List ℕ) : List ℕ :=
  let lp := p.map (fun c => gf.log.getD c 0)
  (List.range q.length).foldl
    (fun (r : List ℕ) j =>
      let qj := q.getD j 0
      if qj ≠ 0 then
        let lq := gf.log.getD qj 0
        (List.range p.length).foldl
          (fun (r2 : List ℕ) i =>
            if p.getD i 0 ≠ 0 then
              r2.set (i + j) (r2.getD (i + j) 0 ^^^ gf.exp.getD (lp.getD i 0 + lq) 0)
            else r2) r
      else r)
    (List.replicate (p.length + q.length - 1) 0)

/-- `gf_poly_eval` (Horner). -/
def gf_poly_eval (gf : GFTables) (poly : List ℕ) (x : ℕ) : ℕ :=
  (poly.drop 1).foldl (fun y c => gf_mul gf y x ^^^ c) (poly.getD 0 0)

/-- The inner loop of `gf_poly_div` (the `for j in xrange(1, len(divisor))`
row update at outer index `i`, with the log of the current coefficient
precached in `lcoef`). -/
def gf_poly_div_inner (gf : GFTables) (divisor ldiv : List ℕ) (i lcoef : ℕ)
    (m : List ℕ) : List ℕ :=
  (List.range (divisor.length - 1)).foldl
    (fun (m2 : List ℕ) jm =>
      let j := jm + 1
      if divisor.getD j 0 ≠ 0 then
        m2.set (i + j) (m2.getD (i + j) 0 ^^^ gf.exp.getD (ldiv.getD j 0 + lcoef) 0)
      else m2) m

/-- The body of the outer loop of `gf_poly_div`. -/
def gf_poly_div_step (gf : GFTables) (divisor ldiv : List ℕ) (m : List ℕ) (i : ℕ) :
    List ℕ :=
  let coef := m.getD i 0
  if coef ≠ 0 then gf_poly_div_inner gf divisor ldiv i (gf.log.getD coef 0) m else m

/-- `gf_poly_div` (extended synthetic division).  The final slicing
models Python `msg_out[:separator], msg_out[separator:]` with
`separator = -(len(divisor)-1)`; for a length-1 divisor `separator`
is `-0 = 0`, so the quotient slice is empty and the remainder slice is
the whole buffer. -/
def gf_poly_div (gf : GFTables) (dividend divisor : List ℕ) : List ℕ × List ℕ :=
  let ldiv := divisor.map (fun c => gf.log.getD c 0)
  let msgOut := (List.range (dividend.length - (divisor.length - 1))).foldl
    (gf_poly_div_step gf divisor ldiv) dividend
  let sep := divisor.length - 1
  if sep = 0 then ([], msgOut)
  else (msgOut.take (msgOut.length - sep), msgOut.drop (msgOut.length - sep))

/-- `rs_generator_poly`. -/
def rs_generator_poly (gf : GFTables) (nsym fcr generator : ℕ) : List ℕ :=
  (List.range nsym).foldl
    (fun g i => gf_poly_mul gf g [1, gf_pow gf generator ((i : ℤ) + fcr)]) [1]

/-- The inner loop of `rs_encode_msg`: unlike `gf_poly_div_inner`,
there is no `gen[j] != 0` test, and the `exp` index is written
`lcoef + lgen[j]`. -/
def rs_encode_inner (gf : GFTables) (lgen : List ℕ) (genLen i lcoef : ℕ)
    (m : List ℕ) : List ℕ :=
  (List.range (genLen - 1)).foldl
    (fun (m2 : List ℕ) jm =>
      let j := jm + 1
      m2.set (i + j) (m2.getD (i + j) 0 ^^^ gf.exp.getD (lcoef + lgen.getD j 0) 0)) m

/-- The body of the main synthetic-division loop of `rs_encode_msg`. -/
def rs_encode_step (gf : GFTables) (lgen : List ℕ) (genLen : ℕ) (m : List ℕ) (i : ℕ) :
    List ℕ :=
  let coef := m.getD i 0
  if coef ≠ 0 then rs_encode_inner gf lgen genLen i (gf.log.getD coef 0) m else m

/-- `rs_encode_msg(msg_in, nsym, gen=gen)`: the optimized encoder.  It
performs no length check and no zero test on `gen[j]` (only on `coef`),
and finally overwrites the quotient part with the original message.
The unused `nsym`/`fcr`/`generator` parameters of the source (only used
when `gen` is absent, which the source forbids) are omitted. -/
def rs_encode_msg (gf : GFTables) (msgIn gen : List ℕ) : List ℕ :=
  let msgOut := msgIn ++ List.replicate (gen.length - 1) 0
  let lgen := gen.map (fun c => gf.log.getD c 0)
  let final := (List.range msgIn.length).foldl (rs_encode_step gf lgen gen.length) msgOut
  msgIn ++ final.drop msgIn.length

/-- `rs_simple_encode_msg(msg_in, nsym, gen=gen)`: checks the length
bound, then appends the remainder of the extended synthetic division. -/
def rs_simple_encode_msg (gf : GFTables) (msgIn : List ℕ) (nsym : ℕ) (gen : List ℕ) :
    Except RSError (List ℕ) :=
  if msgIn.length + nsym > gf.charac then .error .messageTooLong
  else .ok (msgIn ++ (gf_poly_div gf (msgIn ++ List.replicate (gen.length - 1) 0) gen).2)

/-- `rs_calc_syndromes`: `synd[0] = 0`, `synd[i+1] = eval(msg, α^(i+fcr))`. -/
def rs_calc_syndromes (gf : GFTables) (msgIn : List ℕ) (nsym fcr generator : ℕ) : List ℕ :=
  0 :: (List.range nsym).map (fun i => gf_poly_eval gf msgIn (gf_pow gf generator ((i : ℤ) + fcr)))

/-- `rs_forney_syndromes`. -/
def rs_forney_syndromes (gf : GFTables) (synd pos : List ℕ) (nmess generator : ℕ) : List ℕ :=
  (pos.map (fun p => nmess - 1 - p)).foldl
    (fun (fsynd : List ℕ) d =>
      let x := gf_pow gf generator (d : ℤ)
      (List.range (fsynd.length - 1)).foldl
        (fun (fs : List ℕ) j => fs.set j (gf_mul gf (fs.getD j 0) x ^^^ fs.getD (j + 1) 0)) fsynd)
    (synd.drop 1)

/-- Python indexing `l[k]` for possibly negative `k` (single wrap-around). -/
def pyGet (l : List ℕ) (k : ℤ) : ℕ :=
  if k < 0 then l.getD (l.length - (-k).toNat) 0 else l.getD k.toNat 0

/-- `rs_find_error_locator` (Berlekamp-Massey).  A `None` erasure
locator behaves as a zero-length memoryview in the source (`nonecheck`
is off and the slice struct is zero-filled), modelled by `[]`.  The
final bound check `(errs - erase_count) * 2 + erase_count > nsym` is C
`int` arithmetic, hence done in `ℤ`. -/
def rs_find_error_locator (gf : GFTables) (synd : List ℕ) (nsym : ℕ)
    (eraseLoc : List ℕ) (eraseCount : ℕ) : Except RSError (List ℕ) :=
  let init : List ℕ × List ℕ :=
    if eraseLoc.length > 0 then (eraseLoc, eraseLoc) else ([1], [1])
  let syndShift := if synd.length > nsym then synd.length - nsym else 0
  let final := (List.range (nsym - eraseCount)).foldl
    (fun (st : List ℕ × List ℕ) i =>
      let errLoc := st.1; let oldLoc := st.2
      let K := if eraseLoc.length > 0 then eraseCount + i + syndShift else i + syndShift
      let delta := (List.range (errLoc.length - 1)).foldl
        (fun d jm =>
          let j := jm + 1
          d ^^^ gf_mul gf (errLoc.getD (errLoc.length - (j + 1)) 0) (pyGet synd ((K : ℤ) - (j : ℤ))))
        (synd.getD K 0)
      let oldLoc2 := oldLoc ++ [0]
      if delta ≠ 0 then
        let swapped : List ℕ × List ℕ :=
          if oldLoc2.length > errLoc.length then
            (gf_poly_scale gf oldLoc2 delta, gf_poly_scale gf errLoc (gf_inverse gf delta))
          else (errLoc, oldLoc2)
        (gf_poly_add swapped.1 (gf_poly_scale gf swapped.2 delta), swapped.2)
      else (errLoc, oldLoc2))
    init
  let dropped := final.1.dropWhile (fun c => c = 0)
  let errLoc2 := if dropped.isEmpty then final.1 else dropped
  let errs := errLoc2.length - 1
  if ((errs : ℤ) - (eraseCount : ℤ)) * 2 + (eraseCount : ℤ) > (nsym : ℤ) then
    .error .tooManyErrors
  else .ok errLoc2

/-- `rs_find_errata_locator`. -/
def rs_find_errata_locator (gf : GFTables) (ePos : List ℕ) (generator : ℕ) : List ℕ :=
  ePos.foldl
    (fun eLoc i => gf_poly_mul gf eLoc (gf_poly_add [1] [gf_pow gf generator (i : ℤ), 0])) [1]

/-- `rs_find_error_evaluator`: multiply then keep the last `nsym + 1`
coefficients. -/
def rs_find_error_evaluator (gf : GFTables) (synd errLoc : List ℕ) (nsym : ℕ) : List ℕ :=
  let remainder := gf_poly_mul gf synd errLoc
  remainder.drop (remainder.length - (nsym + 1))

/-- `rs_find_errors` (Chien-style search): position `nmess - 1 - i` is
recorded, in increasing `i` order, whenever `err_loc` evaluates to zero
at `α^i`; then the root count is checked against `deg err_loc`. -/
def rs_find_errors (gf : GFTables) (errLoc : List ℕ) (nmess generator : ℕ) :
    Except RSError (List ℕ) :=
  let errs := errLoc.length - 1
  let errPos : List ℕ := (List.range nmess).filterMap
    (fun (i : ℕ) => if gf_poly_eval gf errLoc (gf_pow gf generator (i : ℤ)) = 0
              then some (nmess - 1 - i) else none)
  if errPos.length ≠ errs then .error .chienMismatch
  else .ok errPos

/-- `rs_correct_errata` (Forney algorithm). -/
def rs_correct_errata (gf : GFTables) (msgIn synd errPos : List ℕ) (fcr generator : ℕ) :
    Except RSError (List ℕ) :=
  let coefPos := errPos.map (fun p => msgIn.length - 1 - p)
  let errLoc := rs_find_errata_locator gf coefPos generator
  let errEval := (rs_find_error_evaluator gf synd.reverse errLoc (errLoc.length - 1)).reverse
  let X := coefPos.map (fun cp => gf_pow gf generator (-((gf.charac : ℤ) - (cp : ℤ))))
  do
    let E ← (List.range X.length).foldlM
      (fun (E : List ℕ) i => do
        let Xi := X.getD i 0
        let XiInv := gf_inverse gf Xi
        let errLocPrime := (List.range X.length).foldl
          (fun acc j =>
            if j ≠ i then gf_mul gf acc (gf_sub 1 (gf_mul gf XiInv (X.getD j 0))) else acc) 1
        if errLocPrime = 0 then throw RSError.forneyDegenerate
        else do
          let y := gf_poly_eval gf errEval.reverse XiInv
          let y2 := gf_mul gf (gf_pow gf Xi (1 - (fcr : ℤ))) y
          let magnitude ← gf_div gf y2 errLocPrime
          pure (E.set (errPos.getD i 0) magnitude))
      (List.replicate msgIn.length 0)
    pure (gf_poly_add msgIn E)

/-- Python `m[:-nsym], m[-nsym:]`: for `nsym = 0` this is `([], m)`. -/
def msgSplit (m : List ℕ) (nsym : ℕ) : List ℕ × List ℕ :=
  if nsym = 0 then ([], m)
  else (m.take (m.length - nsym), m.drop (m.length - nsym))

/-- `rs_correct_msg`: the main per-chunk decoding function. -/
def rs_correct_msg (gf : GFTables) (msgIn : List ℕ) (nsym fcr generator : ℕ)
    (erasePos : List ℕ) (onlyErasures : Bool) :
    Except RSError (List ℕ × List ℕ × List ℕ) :=
  if msgIn.length > gf.charac then .error .messageTooLong
  else
    let msgOut := erasePos.foldl (fun (m : List ℕ) e => m.set e 0) msgIn
    if erasePos.length > nsym then .error .tooManyErasures
    else
      let synd := rs_calc_syndromes gf msgOut nsym fcr generator
      if synd.foldl max 0 = 0 then
        .ok ((msgSplit msgOut nsym).1, (msgSplit msgOut nsym).2, erasePos)
      else do
        let errPos ←
          if onlyErasures then pure []
          else do
            let fsynd := rs_forney_syndromes gf synd erasePos msgOut.length generator
            let errLoc ← rs_find_error_locator gf fsynd nsym [] erasePos.length
            rs_find_errors gf errLoc.reverse msgOut.length generator
        let errataPos := erasePos ++ errPos
        let msgOut2 ← rs_correct_errata gf msgOut synd errataPos fcr generator
        let synd2 := rs_calc_syndromes gf msgOut2 nsym fcr generator
        if synd2.foldl max 0 > 0 then .error .uncorrectableResidual
        else .ok ((msgSplit msgOut2 nsym).1, (msgSplit msgOut2 nsym).2, errataPos)

/-- `rs_check`. -/
def rs_check (gf : GFTables) (msg : List ℕ) (nsym fcr generator : ℕ) : Bool :=
  (rs_calc_syndromes gf msg nsym fcr generator).foldl max 0 = 0

/-- The per-chunk loop of `RSCodec.encode`, by recursion on the chunk
count `ceil(len(data) / chunk_size)`.  The source writes each encoded
chunk into a preallocated output `bytearray` by slice assignment at
offset `i * nsize`; because a short final message chunk yields a short
codeword, the Python slice-assignment resizing semantics make the
result exactly the concatenation of the per-chunk codewords. -/
def encode_chunks (gf : GFTables) (gen : List ℕ) (chunkSize : ℕ) :
    ℕ → List ℕ → List ℕ
  | 0, _ => []
  | n + 1, data =>
      rs_encode_msg gf (data.take chunkSize) gen ++
        encode_chunks gf gen chunkSize n (data.drop chunkSize)

/-- `RSCodec.encode` with `single_gen = True` (the default): the
generator polynomial is `rs_generator_poly nsym` and the chunk size is
`nsize - nsym`. -/
def RSCodec_encode (gf : GFTables) (nsym nsize fcr generator : ℕ) (data : List ℕ) : List ℕ :=
  let gen := rs_generator_poly gf nsym fcr generator
  let chunkSize := nsize - nsym
  encode_chunks gf gen chunkSize ((data.length + chunkSize - 1) / chunkSize) data

/-- The per-chunk loop of `RSCodec.decode`: each iteration takes the
erasure positions `< nsize` as this chunk-local erasure list and passes
the rest, shifted down by `nsize`, to the next iteration; outputs are
accumulated by concatenation (the source writes into preallocated
bytearrays by slice assignment, which resizes to exactly this
concatenation).  A chunk failure aborts the whole call. -/
def decode_chunks (gf : GFTables) (nsym nsize fcr generator : ℕ) (onlyErasures : Bool) :
    ℕ → List ℕ → List ℕ → Except RSError (List ℕ × List ℕ × List ℕ)
  | 0, _, _ => .ok ([], [], [])
  | n + 1, data, erasePos => do
      let ePos := erasePos.filter (fun x => x < nsize)
      let eraseNext := (erasePos.filter (fun x => ¬ x < nsize)).map (fun x => x - nsize)
      let r ← rs_correct_msg gf (data.take nsize) nsym fcr generator ePos onlyErasures
      let rest ← decode_chunks gf nsym nsize fcr generator onlyErasures n (data.drop nsize) eraseNext
      .ok (r.1 ++ rest.1, (r.1 ++ r.2.1) ++ rest.2.1, r.2.2 ++ rest.2.2)

/-- `RSCodec.decode`. -/
def RSCodec_decode (gf : GFTables) (nsym nsize fcr generator : ℕ) (data : List ℕ)
    (erasePos : List ℕ) (onlyErasures : Bool) :
    Except RSError (List ℕ × List ℕ × List ℕ) :=
  decode_chunks gf nsym nsize fcr generator onlyErasures
    ((data.length + nsize - 1) / nsize) data erasePos

/-- `RSCodec.maxerrata(nsym, errors, erasures)`: the source signals
"argument not given" by `-1` and tests `>= 0`; divisions are C `int`
truncations of nonnegative quantities, i.e. `Int.div` here. -/
def RSCodec_maxerrata (nsym errors erasures : ℤ) : Except RSError (ℤ × ℤ) :=
  let maxerrors := nsym / 2
  let maxerasures := nsym
  if 0 ≤ erasures then
    if erasures > maxerasures then .error .singletonExceeded
    else .ok ((nsym - erasures) / 2, erasures)
  else if 0 ≤ errors then
    if errors > maxerrors then .error .singletonExceeded
    else .ok (errors, nsym - errors * 2)
  else .ok (maxerrors, maxerasures)

/-- The `c_exp` auto-raise computation of `RSCodec.__init__` for
`nsize > 255 ∧ c_exp ≤ 8`:
`c_exp = <int>(math.log(2 ** (math.floor(math.log(nsize) / math.log(2)) + 1)))`
where `math.log` is the natural logarithm of `libc` (the module does
`from cython.cimports.libc cimport math`).  Modelled over `ℝ`; at the
inputs considered the float computation is far from any rounding
boundary, so the real-number floor agrees with the C double result. -/
noncomputable def RSCodec_auto_c_exp (nsize : ℕ) : ℤ :=
  ⌊Real.log ((2 : ℝ) ^ (⌊Real.log (nsize : ℝ) / Real.log 2⌋ + 1))⌋

/-- What the spec asks for: the smallest exponent `m` with
`2 ^ m - 1 ≥ nsize`, i.e. the ceiling log of `nsize + 1`. -/
def spec_auto_c_exp (nsize : ℕ) : ℕ := Nat.clog 2 (nsize + 1)

/-- The default tables: `init_tables(0x11d, 2, 8)`. -/
def gfD : GFTables := init_tables 285 2 8

/-- The log table of `gfD`, as an explicit literal (see `gfD_eq_lit`). -/
def gfDlogLit : List Nat := [0, 0, 1, 25, 2, 50, 26, 198, 3, 223, 51, 238, 27, 104, 199, 75, 4, 100, 224, 14, 52, 141, 239, 129, 28, 193, 105, 248, 200, 8, 76, 113, 5, 138, 101, 47, 225, 36, 15, 33, 53, 147, 142, 218, 240, 18, 130, 69, 29, 181, 194, 125, 106, 39, 249, 185, 201, 154, 9, 120, 77, 228, 114, 166, 6, 191, 139, 98, 102, 221, 48, 253, 226, 152, 37, 179, 16, 145, 34, 136, 54, 208, 148, 206, 143, 150, 219, 189, 241, 210, 19, 92, 131, 56, 70, 64, 30, 66, 182, 163, 195, 72, 126, 110, 107, 58, 40, 84, 250, 133, 186, 61, 202, 94, 155, 159, 10, 21, 121, 43, 78, 212, 229, 172, 115, 243, 167, 87, 7, 112, 192, 247, 140, 128, 99, 13, 103, 74, 222, 237, 49, 197, 254, 24, 227, 165, 153, 119, 38, 184, 180, 124, 17, 68, 146, 217, 35, 32, 137, 46, 55, 63, 209, 91, 149, 188, 207, 205, 144, 135, 151, 178, 220, 252, 190, 97, 242, 86, 211, 171, 20, 42, 93, 158, 132, 60, 57, 83, 71, 109, 65, 162, 31, 45, 67, 216, 183, 123, 164, 118, 196, 23, 73, 236, 127, 12, 111, 246, 108, 161, 59, 82, 41, 157, 85, 170, 251, 96, 134, 177, 187, 204, 62, 90, 203, 89, 95, 176, 156, 169, 160, 81, 11, 245, 22, 235, 122, 117, 44, 215, 79, 174, 213, 233, 230, 231, 173, 232, 116, 214, 244, 234, 168, 80, 88, 175]

/-- The (doubled) exp table of `gfD`, as an explicit literal. -/
def gfDexpLit : List Nat := [1, 2, 4, 8, 16, 32, 64, 128, 29, 58, 116, 232, 205, 135, 19, 38, 76, 152, 45, 90, 180, 117, 234, 201, 143, 3, 6, 12, 24, 48, 96, 192, 157, 39, 78, 156, 37, 74, 148, 53, 106, 212, 181, 119, 238, 193, 159, 35, 70, 140, 5, 10, 20, 40, 80, 160, 93, 186, 105, 210, 185, 111, 222, 161, 95, 190, 97, 194, 153, 47, 94, 188, 101, 202, 137, 15, 30, 60, 120, 240, 253, 231, 211, 187, 107, 214, 177, 127, 254, 225, 223, 163, 91, 182, 113, 226, 217, 175, 67, 134, 17, 34, 68, 136, 13, 26, 52, 104, 208, 189, 103, 206, 129, 31, 62, 124, 248, 237, 199, 147, 59, 118, 236, 197, 151, 51, 102, 204, 133, 23, 46, 92, 184, 109, 218, 169, 79, 158, 33, 66, 132, 21, 42, 84, 168, 77, 154, 41, 82, 164, 85, 170, 73, 146, 57, 114, 228, 213, 183, 115, 230, 209, 191, 99, 198, 145, 63, 126, 252, 229, 215, 179, 123, 246, 241, 255, 227, 219, 171, 75, 150, 49, 98, 196, 149, 55, 110, 220, 165, 87, 174, 65, 130, 25, 50, 100, 200, 141, 7, 14, 28, 56, 112, 224, 221, 167, 83, 166, 81, 162, 89, 178, 121, 242, 249, 239, 195, 155, 43, 86, 172, 69, 138, 9, 18, 36, 72, 144, 61, 122, 244, 245, 247, 243, 251, 235, 203, 139, 11, 22, 44, 88, 176, 125, 250, 233, 207, 131, 27, 54, 108, 216, 173, 71, 142, 1, 2, 4, 8, 16, 32, 64, 128, 29, 58, 116, 232, 205, 135, 19, 38, 76, 152, 45, 90, 180, 117, 234, 201, 143, 3, 6, 12, 24, 48, 96, 192, 157, 39, 78, 156, 37, 74, 148, 53, 106, 212, 181, 119, 238, 193, 159, 35, 70, 140, 5, 10, 20, 40, 80, 160, 93, 186, 105, 210, 185, 111, 222, 161, 95, 190, 97, 194, 153, 47, 94, 188, 101, 202, 137, 15, 30, 60, 120, 240, 253, 231, 211, 187, 107, 214, 177, 127, 254, 225, 223, 163, 91, 182, 113, 226, 217, 175, 67, 134, 17, 34, 68, 136, 13, 26, 52, 104, 208, 189, 103, 206, 129, 31, 62, 124, 248, 237, 199, 147, 59, 118, 236, 197, 151, 51, 102, 204, 133, 23, 46, 92, 184, 109, 218, 169, 79, 158, 33, 66, 132, 21, 42, 84, 168, 77, 154, 41, 82, 164, 85, 170, 73, 146, 57, 114, 228, 213, 183, 115, 230, 209, 191, 99, 198, 145, 63, 126, 252, 229, 215, 179, 123, 246, 241, 255, 227, 219, 171, 75, 150, 49, 98, 196, 149, 55, 110, 220, 165, 87, 174, 65, 130, 25, 50, 100, 200, 141, 7, 14, 28, 56, 112, 224, 221, 167, 83, 166, 81, 162, 89, 178, 121, 242, 249, 239, 195, 155, 43, 86, 172, 69, 138, 9, 18, 36, 72, 144, 61, 122, 244, 245, 247, 243, 251, 235, 203, 139, 11, 22, 44, 88, 176, 125, 250, 233, 207, 131, 27, 54, 108, 216, 173, 71, 142]

/-- Literal form of the default tables. -/
def gfDlit : GFTables := { log := gfDlogLit, exp := gfDexpLit, charac := 255 }

theorem gfD_eq_lit : gfD = gfDlit := by decide

/-! ## Generic list lemmas -/

theorem foldl_congr {α β : Type} {f g : α → β → α} {l : List β} (init : α)
    (h : ∀ a b, b ∈ l → f a b = g a b) : l.foldl f init = l.foldl g init := by
  induction l generalizing init with
  | nil => rfl
  | cons x t ih =>
      simp only [List.foldl_cons]
      rw [h init x (List.mem_cons_self x t)]
      exact ih _ (fun a b hb => h a b (List.mem_cons_of_mem _ hb))

/-! ## Claim C9: maxerrata -/

/-- Claim C9: `maxerrata()` returns `(⌊nsym/2⌋, nsym)`;
`maxerrata(erasures := v)` with `v ≤ nsym` returns `(⌊(nsym-v)/2⌋, v)`;
`maxerrata(errors := e)` with `e ≤ ⌊nsym/2⌋` returns `(e, nsym - 2e)`;
and a value beyond the corresponding bound raises. -/
theorem maxerrata_spec (nsym e v : ℤ) (hn : 0 ≤ nsym) :
    RSCodec_maxerrata nsym (-1) (-1) = .ok (nsym / 2, nsym) ∧
    (0 ≤ v → v ≤ nsym → RSCodec_maxerrata nsym (-1) v = .ok ((nsym - v) / 2, v)) ∧
    (0 ≤ e → e ≤ nsym / 2 → RSCodec_maxerrata nsym e (-1) = .ok (e, nsym - e * 2)) ∧
    (v > nsym → RSCodec_maxerrata nsym (-1) v = .error .singletonExceeded) ∧
    (0 ≤ e → e > nsym / 2 → RSCodec_maxerrata nsym e (-1) = .error .singletonExceeded) := by
  refine ⟨?_, fun h1 h2 => ?_, fun h1 h2 => ?_, fun h1 => ?_, fun h1 h2 => ?_⟩ <;>
    (simp only [RSCodec_maxerrata]; split_ifs <;> first | rfl | omega)

theorem maxerrata_spec_witness :
    RSCodec_maxerrata 10 (-1) (-1) = .ok ((10:ℤ) / 2, 10) ∧
    RSCodec_maxerrata 10 (-1) 4 = .ok (((10:ℤ) - 4) / 2, 4) ∧
    RSCodec_maxerrata 10 3 (-1) = .ok (3, (10:ℤ) - 3 * 2) ∧
    RSCodec_maxerrata 10 (-1) 11 = .error .singletonExceeded ∧
    RSCodec_maxerrata 10 6 (-1) = .error .singletonExceeded :=
  ⟨(maxerrata_spec 10 6 4 (by decide)).1,
   (maxerrata_spec 10 6 4 (by decide)).2.1 (by decide) (by decide),
   (maxerrata_spec 10 3 4 (by decide)).2.2.1 (by decide) (by decide),
   (maxerrata_spec 10 3 11 (by decide)).2.2.2.1 (by decide),
   (maxerrata_spec 10 6 4 (by decide)).2.2.2.2 (by decide) (by decide)⟩

/-! ## Claim C4: constructor field auto-raise -/

/-- Claim C4 (code bug): at `nsize = 300` (with `c_exp ≤ 8`) the
constructor computes `c_exp = ⌊ln (2 ^ 9)⌋ = 6` — the outer logarithm is
the natural one, not base 2 — whereas the smallest exponent `m` with
`2 ^ m - 1 ≥ 300` is `9`; the chosen field `GF(2^6)` cannot even hold a
chunk of size 300 (`2 ^ 6 - 1 < 300`). -/
theorem auto_c_exp_bug :
    RSCodec_auto_c_exp 300 = 6 ∧
    (∀ m : ℕ, m < 9 → 2 ^ m - 1 < 300) ∧ 300 ≤ 2 ^ 9 - 1 ∧
    2 ^ 6 - 1 < 300 := by
  refine ⟨?_, by decide, by decide, by decide⟩
  have hlog300 : ⌊Real.log ((300 : ℕ) : ℝ) / Real.log 2⌋ = 8 := by
    have h1 : Real.log ((300 : ℕ) : ℝ) / Real.log 2
        = Real.logb (((2 : ℕ) : ℝ)) (((300 : ℕ) : ℝ)) := by
      rw [Real.logb]; norm_num
    rw [h1, Real.floor_logb_natCast (by positivity), Int.log_natCast]
    have h2 : Nat.log 2 300 = 8 :=
      Nat.log_eq_of_pow_le_of_lt_pow (by norm_num) (by norm_num)
    rw [h2]; rfl
  rw [RSCodec_auto_c_exp, hlog300]
  have h2 : ((2 : ℝ) ^ ((8 : ℤ) + 1)) = (2 : ℝ) ^ (9 : ℕ) := by norm_num
  rw [h2, Real.log_pow]
  have hlo := Real.log_two_gt_d9
  have hhi := Real.log_two_lt_d9
  rw [Int.floor_eq_iff]
  constructor
  · push_cast
    nlinarith
  · push_cast
    nlinarith

/-! ## Claim C5: encoder length guard -/

/-- The tables for the field GF(2^3) (`init_tables(0b1011, 2, 3)`),
with `n_max = 7`; used for concrete instances where full GF(2^8)
evaluation would be needlessly heavy. -/
def gf8 : GFTables := init_tables 11 2 3

/-- Counterexample to claim C5 as stated: in GF(2^3) (`n_max = 7`),
encoding the 4-symbol message `[1,2,3,4]` with `nsym = 4` parity
symbols (4 + 4 = 8 > 7 = n_max) through the optimized encoder
`rs_encode_msg` does not fail: there is no length check, and an
8-symbol codeword is returned. -/
theorem encode_no_length_guard :
    4 + 4 > gf8.charac ∧
    rs_encode_msg gf8 [1, 2, 3, 4] (rs_generator_poly gf8 4 0 2)
      = [1, 2, 3, 4, 1, 6, 7, 4] := by
  constructor
  · decide
  · decide

/-- Claim C5, amended: the length guard exists only in the simple
reference encoder: `rs_simple_encode_msg` fails with the
message-too-long error whenever `|msg| + nsym > n_max`; the optimized
`rs_encode_msg` performs no such check. -/
theorem simple_encode_length_guard (gf : GFTables) (msgIn : List ℕ) (nsym : ℕ)
    (gen : List ℕ) (h : msgIn.length + nsym > gf.charac) :
    rs_simple_encode_msg gf msgIn nsym gen = .error .messageTooLong := by
  simp only [rs_simple_encode_msg, if_pos h]

/-! ## Claim C3: encoder refinement -/

theorem getD_mem_of_lt {l : List ℕ} {j : ℕ} (h : j < l.length) : l.getD j 0 ∈ l := by
  rw [List.getD_eq_getElem l 0 h]; exact List.getElem_mem h

theorem foldl_length_inv {β : Type} {f : List ℕ → β → List ℕ} {l : List β}
    (hf : ∀ a b, (f a b).length = a.length) (init : List ℕ) :
    (l.foldl f init).length = init.length := by
  induction l generalizing init with
  | nil => rfl
  | cons x t ih => simp only [List.foldl_cons]; rw [ih, hf]

/-- Counterexample to claim C3 as stated: for the monic degree-2
polynomial `g = [1, 0, 1]` (a zero interior coefficient) the optimized
encoder disagrees with the simple reference encoder on the message
`[1]` — `rs_encode_msg` has no `gen[j] != 0` test, so it XORs
`exp[log 1 + log 0] = 1` where the synthetic division adds nothing.
For `g = [1]` (degree 0) the Python slice `msg_out[-0:]` makes the
reference remainder the whole buffer, and they disagree again. -/
theorem encode_msg_vs_simple_cex :
    ([1, 0, 1] : List ℕ).getD 0 0 = 1 ∧ (1 : ℕ) + 2 ≤ gfD.charac ∧
    rs_encode_msg gfD [1] [1, 0, 1] = [1, 1, 1] ∧
    rs_simple_encode_msg gfD [1] 2 [1, 0, 1] = .ok [1, 0, 1] ∧
    rs_encode_msg gfD [1] [1] = [1] ∧
    rs_simple_encode_msg gfD [1] 0 [1] = .ok [1, 1] := by
  rw [gfD_eq_lit]
  exact ⟨by decide, by decide, by decide, by decide, by decide, by decide⟩

/-- The outer-loop step functions of `gf_poly_div` and `rs_encode_msg`
agree when every divisor coefficient is nonzero. -/
theorem div_step_eq_encode_step (gf : GFTables) (gen : List ℕ)
    (hnz : ∀ v ∈ gen, v ≠ 0) (m : List ℕ) (i : ℕ) :
    gf_poly_div_step gf gen (gen.map (fun c => gf.log.getD c 0)) m i
      = rs_encode_step gf (gen.map (fun c => gf.log.getD c 0)) gen.length m i := by
  simp only [gf_poly_div_step, rs_encode_step]
  split_ifs with hc
  · simp only [gf_poly_div_inner, rs_encode_inner]
    refine foldl_congr _ (fun m2 jm hjm => ?_)
    have hj : jm + 1 < gen.length := by
      have := List.mem_range.mp hjm; omega
    rw [if_pos (hnz _ (getD_mem_of_lt hj)),
      Nat.add_comm ((gen.map (fun c => gf.log.getD c 0)).getD (jm + 1) 0)
        (gf.log.getD (m.getD i 0) 0)]
  · rfl

theorem rs_encode_inner_length (gf : GFTables) (lgen : List ℕ) (genLen i lcoef : ℕ)
    (m : List ℕ) : (rs_encode_inner gf lgen genLen i lcoef m).length = m.length := by
  refine foldl_length_inv (fun a b => ?_) m
  simp [List.length_set]

theorem rs_encode_step_length (gf : GFTables) (lgen : List ℕ) (genLen : ℕ)
    (m : List ℕ) (i : ℕ) : (rs_encode_step gf lgen genLen m i).length = m.length := by
  simp only [rs_encode_step]
  split_ifs
  · exact rs_encode_inner_length gf lgen genLen i _ m
  · rfl

theorem rs_encode_fold_length (gf : GFTables) (lgen : List ℕ) (genLen : ℕ)
    (l : List ℕ) (init : List ℕ) :
    (l.foldl (rs_encode_step gf lgen genLen) init).length = init.length :=
  foldl_length_inv (fun a b => rs_encode_step_length gf lgen genLen a b) init

/-- Claim C3, amended: for every monic generator polynomial `g` of
degree `nsym ≥ 1` **all of whose coefficients are nonzero** (as is the
case for every actual Reed-Solomon generator polynomial) and every
message with `|msg| + nsym ≤ n_max`, the optimized encoder agrees with
the simple reference encoder, and its first `|msg|` symbols are the
message unchanged. -/
theorem encode_msg_eq_simple (gf : GFTables) (msgIn gen : List ℕ) (nsym : ℕ)
    (hlen : gen.length = nsym + 1) (hns : 1 ≤ nsym)
    (hmonic : gen.getD 0 0 = 1)
    (hnz : ∀ v ∈ gen, v ≠ 0)
    (hbound : msgIn.length + nsym ≤ gf.charac) :
    rs_simple_encode_msg gf msgIn nsym gen = .ok (rs_encode_msg gf msgIn gen) ∧
    (rs_encode_msg gf msgIn gen).take msgIn.length = msgIn := by
  clear hmonic
  refine ⟨?_, by simp only [rs_encode_msg]; exact List.take_left msgIn _⟩
  simp only [rs_simple_encode_msg, rs_encode_msg, gf_poly_div]
  rw [if_neg (by omega)]
  have hrange : (msgIn ++ List.replicate (gen.length - 1) 0).length - (gen.length - 1)
      = msgIn.length := by
    simp [List.length_append, List.length_replicate]
  rw [hrange,
    foldl_congr (msgIn ++ List.replicate (gen.length - 1) 0)
      (fun m i _ => div_step_eq_encode_step gf gen hnz m i),
    if_neg (show ¬ gen.length - 1 = 0 by omega)]
  simp only [Except.ok.injEq]
  congr 1
  rw [rs_encode_fold_length]
  simp only [List.length_append, List.length_replicate]
  congr 1
  omega

theorem encode_msg_eq_simple_witness :
    (([1, 3, 2] : List ℕ).length = 2 + 1 ∧ (1:ℕ) ≤ 2 ∧
     ([1, 3, 2] : List ℕ).getD 0 0 = 1 ∧
     (∀ v ∈ ([1, 3, 2] : List ℕ), v ≠ 0) ∧
     ([1, 2] : List ℕ).length + 2 ≤ gf8.charac) ∧
    rs_simple_encode_msg gf8 [1, 2] 2 [1, 3, 2] = .ok (rs_encode_msg gf8 [1, 2] [1, 3, 2]) ∧
    (rs_encode_msg gf8 [1, 2] [1, 3, 2]).take ([1, 2] : List ℕ).length = [1, 2] :=
  ⟨⟨by decide, by decide, by decide, by decide, by decide⟩,
   encode_msg_eq_simple gf8 [1, 2] [1, 3, 2] 2 (by decide) (by decide) (by decide)
     (by decide) (by decide)⟩

theorem simple_encode_length_guard_witness :
    ([1, 2, 3, 4] : List ℕ).length + 4 > gf8.charac ∧
    rs_simple_encode_msg gf8 [1, 2, 3, 4] 4 (rs_generator_poly gf8 4 0 2)
      = .error .messageTooLong :=
  ⟨by decide,
   simple_encode_length_guard gf8 [1, 2, 3, 4] 4
     (rs_generator_poly gf8 4 0 2) (by decide)⟩

/-! ## Claims C6 and C10: field table invariants

We relate the imperative table construction of `init_tables` to the
sequence `expSeq` of successive values of its running variable `x`, and
prove the invariants from the source's own validity criterion for
`(prim, generator)` (the acceptance test of `find_prime_polys`): the
`charac` generated powers are pairwise distinct, nonzero and `≤ charac`.
-/

theorem getD_set_self (l : List ℕ) (i v : ℕ) (h : i < l.length) :
    (l.set i v).getD i 0 = v := by
  rw [List.getD_eq_getElem?_getD, List.getElem?_set, if_pos rfl, if_pos h]
  rfl

theorem getD_set_ne (l : List ℕ) {i j : ℕ} (v : ℕ) (h : i ≠ j) :
    (l.set i v).getD j 0 = l.getD j 0 := by
  rw [List.getD_eq_getElem?_getD, List.getElem?_set, if_neg h,
    ← List.getD_eq_getElem?_getD]

theorem getD_replicate (n j : ℕ) : (List.replicate n (0:ℕ)).getD j 0 = 0 := by
  rw [List.getD_eq_getElem?_getD, List.getElem?_replicate]
  split_ifs <;> rfl

/-- The successive values of the running `x` of the `init_tables` main
loop: `x₀ = 1`, `x_{i+1} = gf_mult_noLUT(x_i, generator, prim,
field_charac + 1)`. -/
def expSeq (prim generator c_exp : ℕ) : ℕ → ℕ
  | 0 => 1
  | i + 1 =>
      gf_mult_noLUT (expSeq prim generator c_exp i) generator prim (2 ^ c_exp - 1 + 1) true

/-- The initial state of the `init_tables` main loop. -/
def init_state0 (c_exp : ℕ) : List ℕ × List ℕ × ℕ :=
  (List.replicate ((2 ^ c_exp - 1) * 2) 0, List.replicate ((2 ^ c_exp - 1) + 1) 0, 1)

/-- The main-loop state after `k` iterations. -/
def init_fold (prim generator c_exp k : ℕ) : List ℕ × List ℕ × ℕ :=
  (List.range k).foldl (init_tables_step prim generator c_exp) (init_state0 c_exp)

theorem init_fold_succ (p g c k : ℕ) :
    init_fold p g c (k + 1) = init_tables_step p g c (init_fold p g c k) k := by
  simp only [init_fold, List.range_succ, List.foldl_append, List.foldl_cons, List.foldl_nil]

theorem init_fold_third (p g c : ℕ) : ∀ k, (init_fold p g c k).2.2 = expSeq p g c k := by
  intro k
  induction k with
  | zero => rfl
  | succ k ih =>
      rw [init_fold_succ]
      simp only [init_tables_step, expSeq, ih]

theorem init_fold_exp_length (p g c : ℕ) :
    ∀ k, (init_fold p g c k).1.length = (2 ^ c - 1) * 2 := by
  intro k
  induction k with
  | zero => simp [init_fold, init_state0]
  | succ k ih => rw [init_fold_succ]; simp only [init_tables_step, List.length_set]; exact ih

theorem init_fold_log_length (p g c : ℕ) :
    ∀ k, (init_fold p g c k).2.1.length = (2 ^ c - 1) + 1 := by
  intro k
  induction k with
  | zero => simp [init_fold, init_state0]
  | succ k ih => rw [init_fold_succ]; simp only [init_tables_step, List.length_set]; exact ih

theorem init_fold_exp_getD (p g c : ℕ) :
    ∀ k, k ≤ 2 ^ c - 1 → ∀ j,
      (init_fold p g c k).1.getD j 0 = if j < k then expSeq p g c j else 0 := by
  intro k
  induction k with
  | zero => intro _ j; simp [init_fold, init_state0, getD_replicate]
  | succ k ih =>
      intro hk j
      rw [init_fold_succ]
      simp only [init_tables_step]
      rw [init_fold_third]
      by_cases hj : j = k
      · subst hj
        rw [getD_set_self _ _ _ (by rw [init_fold_exp_length]; omega)]
        simp
      · rw [getD_set_ne _ _ (fun h => hj h.symm), ih (by omega) j]
        have : j < k + 1 ↔ j < k := by omega
        simp [this]

theorem init_fold_log_zero (p g c : ℕ)
    (hnz : ∀ i, i < 2 ^ c - 1 → expSeq p g c i ≠ 0) :
    ∀ k, k ≤ 2 ^ c - 1 → (init_fold p g c k).2.1.getD 0 0 = 0 := by
  intro k
  induction k with
  | zero => simp [init_fold, init_state0, getD_replicate]
  | succ k ih =>
      intro hk
      rw [init_fold_succ]
      simp only [init_tables_step]
      rw [init_fold_third, getD_set_ne _ _ (hnz k (by omega)), ih (by omega)]

theorem init_fold_log_getD (p g c : ℕ)
    (hinj : ∀ i, i < 2 ^ c - 1 → ∀ j, j < 2 ^ c - 1 →
      expSeq p g c i = expSeq p g c j → i = j)
    (hle : ∀ i, i < 2 ^ c - 1 → expSeq p g c i ≤ 2 ^ c - 1) :
    ∀ k, k ≤ 2 ^ c - 1 → ∀ i, i < k →
      (init_fold p g c k).2.1.getD (expSeq p g c i) 0 = i := by
  intro k
  induction k with
  | zero => intro _ i hi; omega
  | succ k ih =>
      intro hk i hi
      rw [init_fold_succ]
      simp only [init_tables_step]
      rw [init_fold_third]
      by_cases hik : i = k
      · subst hik
        rw [getD_set_self _ _ _ (by rw [init_fold_log_length]; have := hle i (by omega); omega)]
      · rw [getD_set_ne _ _ (fun h => hik (hinj k (by omega) i (by omega) h).symm)]
        exact ih (by omega) i (by omega)

/-- The doubling-loop state after `k` iterations, starting from the
finished main-loop exp table. -/
def dbl_fold (p g c k : ℕ) : List ℕ :=
  (List.range k).foldl (fun (e : List ℕ) i => e.set ((2 ^ c - 1) + i) (e.getD i 0))
    (init_fold p g c (2 ^ c - 1)).1

theorem dbl_fold_succ (p g c k : ℕ) :
    dbl_fold p g c (k + 1) = (dbl_fold p g c k).set ((2 ^ c - 1) + k)
      ((dbl_fold p g c k).getD k 0) := by
  simp only [dbl_fold, List.range_succ, List.foldl_append, List.foldl_cons, List.foldl_nil]

theorem dbl_fold_length (p g c : ℕ) :
    ∀ k, (dbl_fold p g c k).length = (2 ^ c - 1) * 2 := by
  intro k
  induction k with
  | zero => simp [dbl_fold, init_fold_exp_length]
  | succ k ih => rw [dbl_fold_succ]; simp only [List.length_set]; exact ih

theorem dbl_fold_getD (p g c : ℕ) :
    ∀ k, k ≤ 2 ^ c - 1 → ∀ j,
      (dbl_fold p g c k).getD j 0 =
        if j < 2 ^ c - 1 then expSeq p g c j
        else if j < 2 ^ c - 1 + k then expSeq p g c (j - (2 ^ c - 1)) else 0 := by
  intro k
  induction k with
  | zero =>
      intro _ j
      simp only [dbl_fold, List.range_zero, List.foldl_nil]
      rw [init_fold_exp_getD p g c _ le_rfl j]
      by_cases h1 : j < 2 ^ c - 1 <;> simp [h1]
  | succ k ih =>
      intro hk j
      rw [dbl_fold_succ]
      by_cases hj : j = 2 ^ c - 1 + k
      · subst hj
        rw [getD_set_self _ _ _ (by rw [dbl_fold_length]; omega)]
        rw [ih (by omega) k, if_pos (by omega), if_neg (by omega), if_pos (by omega)]
        congr 1
        omega
      · rw [getD_set_ne _ _ (fun h => hj h.symm), ih (by omega) j]
        by_cases h1 : j < 2 ^ c - 1
        · simp [h1]
        · have : j < 2 ^ c - 1 + (k + 1) ↔ j < 2 ^ c - 1 + k := by omega
          simp [h1, this]

theorem init_tables_charac (p g c : ℕ) : (init_tables p g c).charac = 2 ^ c - 1 := rfl

theorem init_tables_log (p g c : ℕ) :
    (init_tables p g c).log = (init_fold p g c (2 ^ c - 1)).2.1 := rfl

theorem init_tables_exp (p g c : ℕ) :
    (init_tables p g c).exp = dbl_fold p g c (2 ^ c - 1) := rfl

theorem init_tables_exp_getD (p g c : ℕ) (j : ℕ) (hj : j < (2 ^ c - 1) * 2) :
    (init_tables p g c).exp.getD j 0 =
      if j < 2 ^ c - 1 then expSeq p g c j else expSeq p g c (j - (2 ^ c - 1)) := by
  rw [init_tables_exp, dbl_fold_getD p g c _ le_rfl j]
  by_cases h1 : j < 2 ^ c - 1
  · simp [h1]
  · rw [if_neg h1, if_neg h1, if_pos (by omega)]

theorem init_tables_log_getD (p g c : ℕ)
    (hinj : ∀ i, i < 2 ^ c - 1 → ∀ j, j < 2 ^ c - 1 →
      expSeq p g c i = expSeq p g c j → i = j)
    (hle : ∀ i, i < 2 ^ c - 1 → expSeq p g c i ≤ 2 ^ c - 1)
    (i : ℕ) (hi : i < 2 ^ c - 1) :
    (init_tables p g c).log.getD (expSeq p g c i) 0 = i := by
  rw [init_tables_log]
  exact init_fold_log_getD p g c hinj hle _ le_rfl i hi

theorem init_tables_log_zero (p g c : ℕ)
    (hnz : ∀ i, i < 2 ^ c - 1 → expSeq p g c i ≠ 0) :
    (init_tables p g c).log.getD 0 0 = 0 := by
  rw [init_tables_log]
  exact init_fold_log_zero p g c hnz _ le_rfl

/-- Claim C10: `gf_inverse(0)` does not fail: `gf_log[0]` is never
written by the table construction (so it holds the initialisation value
0) and the result is `gf_exp[field_charac]`, which by the doubled table
is `gf_exp[0] = 1`.  (The only assumption is the table-construction
invariant that all generated powers are nonzero, which holds for every
valid `prim`.) -/
theorem gf_inverse_zero (p g c : ℕ) (hc : 1 ≤ 2 ^ c - 1)
    (hnz : ∀ i, i < 2 ^ c - 1 → expSeq p g c i ≠ 0) :
    (init_tables p g c).log.getD 0 0 = 0 ∧
    (init_tables p g c).exp.getD ((init_tables p g c).charac) 0 = 1 ∧
    gf_inverse (init_tables p g c) 0 = 1 := by
  have hlog0 := init_tables_log_zero p g c hnz
  have hexp : (init_tables p g c).exp.getD (2 ^ c - 1) 0 = 1 := by
    rw [init_tables_exp_getD p g c _ (by omega), if_neg (by omega)]
    simp [expSeq]
  refine ⟨hlog0, by rw [init_tables_charac]; exact hexp, ?_⟩
  rw [gf_inverse, hlog0, init_tables_charac, Nat.sub_zero]
  exact hexp

theorem gf_inverse_zero_witness :
    1 ≤ 2 ^ 3 - 1 ∧ (∀ i, i < 2 ^ 3 - 1 → expSeq 11 2 3 i ≠ 0) ∧
    ((init_tables 11 2 3).log.getD 0 0 = 0 ∧
     (init_tables 11 2 3).exp.getD ((init_tables 11 2 3).charac) 0 = 1 ∧
     gf_inverse (init_tables 11 2 3) 0 = 1) :=
  ⟨by decide, by decide, gf_inverse_zero 11 2 3 (by decide) (by decide)⟩

/-- The operational validity criterion for `(prim, generator, c_exp)`,
exactly what `find_prime_polys` checks before accepting `prim`: the
`field_charac` successive powers of the generator are pairwise
distinct, nonzero and do not overflow `field_charac`.  It holds iff
`prim` (of degree `c_exp`) is irreducible and `generator` generates the
multiplicative group. -/
def tables_ok (prim generator c_exp : ℕ) : Prop :=
  (∀ i, i < 2 ^ c_exp - 1 → ∀ j, j < 2 ^ c_exp - 1 →
      expSeq prim generator c_exp i = expSeq prim generator c_exp j → i = j) ∧
  (∀ i, i < 2 ^ c_exp - 1 →
      1 ≤ expSeq prim generator c_exp i ∧ expSeq prim generator c_exp i ≤ 2 ^ c_exp - 1)

instance tables_ok_decidable (p g c : ℕ) : Decidable (tables_ok p g c) := by
  unfold tables_ok
  infer_instance

/-- Pigeonhole: under `tables_ok` every value in `[1, charac]` is a
generated power. -/
theorem expSeq_surj (p g c : ℕ) (hok : tables_ok p g c) (x : ℕ)
    (h1 : 1 ≤ x) (h2 : x ≤ 2 ^ c - 1) :
    ∃ i, i < 2 ^ c - 1 ∧ expSeq p g c i = x := by
  classical
  obtain ⟨i, hi, hxi⟩ :=
    Finset.surj_on_of_inj_on_of_card_le
      (s := Finset.range (2 ^ c - 1)) (t := Finset.Icc 1 (2 ^ c - 1))
      (fun a _ => expSeq p g c a)
      (fun a ha => by
        have := hok.2 a (Finset.mem_range.mp ha)
        exact Finset.mem_Icc.mpr this)
      (fun a1 a2 ha1 ha2 he =>
        hok.1 a1 (Finset.mem_range.mp ha1) a2 (Finset.mem_range.mp ha2) he)
      (by rw [Nat.card_Icc, Finset.card_range]; omega)
      x (Finset.mem_Icc.mpr ⟨h1, h2⟩)
  exact ⟨i, Finset.mem_range.mp hi, hxi.symm⟩

/-- Claim C6: after a table construction with a valid
`(prim, generator)` pair (irreducible `prim`, group-generating
`generator`, expressed by the construction invariant `tables_ok`):
`exp[log[x]] = x` for `x ∈ [1, charac]`; `exp[i] = exp[i + charac]` for
`i < charac` (the doubled-table identity — indices up to `2·charac - 1`
are the whole table); `mul(x, inv(x)) = 1` for `x ≠ 0`; and
`div(mul(x, y), y) = x` for `y ≠ 0`. -/
theorem field_invariants (p g c : ℕ) (hc : 1 ≤ 2 ^ c - 1)
    (hok : tables_ok p g c) :
    (∀ x, 1 ≤ x → x ≤ (init_tables p g c).charac →
      (init_tables p g c).exp.getD ((init_tables p g c).log.getD x 0) 0 = x) ∧
    (∀ i, i < (init_tables p g c).charac →
      (init_tables p g c).exp.getD i 0
        = (init_tables p g c).exp.getD (i + (init_tables p g c).charac) 0) ∧
    (∀ x, 1 ≤ x → x ≤ (init_tables p g c).charac →
      gf_mul (init_tables p g c) x (gf_inverse (init_tables p g c) x) = 1) ∧
    (∀ x y, x ≤ (init_tables p g c).charac → 1 ≤ y → y ≤ (init_tables p g c).charac →
      gf_div (init_tables p g c) (gf_mul (init_tables p g c) x y) y = .ok x) := by
  set n := 2 ^ c - 1 with hn
  rw [init_tables_charac]
  have hloge : ∀ i, i < n → (init_tables p g c).log.getD (expSeq p g c i) 0 = i :=
    fun i hi => init_tables_log_getD p g c hok.1 (fun i hi => (hok.2 i hi).2) i hi
  have hexplt : ∀ j, j < n → (init_tables p g c).exp.getD j 0 = expSeq p g c j :=
    fun j hj => by rw [init_tables_exp_getD p g c j (by omega), if_pos hj]
  have hexpge : ∀ j, n ≤ j → j < n * 2 →
      (init_tables p g c).exp.getD j 0 = expSeq p g c (j - n) :=
    fun j h1 h2 => by rw [init_tables_exp_getD p g c j (by omega), if_neg (by omega)]
  -- part 1
  have part1 : ∀ x, 1 ≤ x → x ≤ n →
      (init_tables p g c).exp.getD ((init_tables p g c).log.getD x 0) 0 = x := by
    intro x h1 h2
    obtain ⟨i, hi, hix⟩ := expSeq_surj p g c hok x h1 h2
    rw [← hix, hloge i hi, hexplt i hi]
  -- part 2
  have part2 : ∀ i, i < n →
      (init_tables p g c).exp.getD i 0
        = (init_tables p g c).exp.getD (i + n) 0 := by
    intro i hi
    rw [hexplt i hi, hexpge (i + n) (by omega) (by omega)]
    congr 1
    omega
  -- part 3
  have part3 : ∀ x, 1 ≤ x → x ≤ n →
      gf_mul (init_tables p g c) x (gf_inverse (init_tables p g c) x) = 1 := by
    intro x h1 h2
    obtain ⟨i, hi, hix⟩ := expSeq_surj p g c hok x h1 h2
    have hinv : gf_inverse (init_tables p g c) x = expSeq p g c ((n - i) % n) := by
      rw [gf_inverse, ← hix, hloge i hi, init_tables_charac, ← hn]
      rcases Nat.eq_zero_or_pos i with hi0 | hip
      · subst hi0
        rw [Nat.sub_zero, hexpge n le_rfl (by omega), Nat.sub_self, Nat.mod_self]
      · rw [hexplt (n - i) (by omega)]
        congr 1
        rw [Nat.mod_eq_of_lt (by omega)]
    have hinvpos := hok.2 ((n - i) % n) (Nat.mod_lt _ (by omega))
    rw [hinv, gf_mul, if_neg (by push_neg; constructor <;> omega),
      ← hix, hloge i hi, hloge _ (Nat.mod_lt _ (by omega)), init_tables_charac, ← hn]
    have harith : (i + (n - i) % n) % n = 0 := by
      rcases Nat.eq_zero_or_pos i with hi0 | hip
      · subst hi0; simp
      · rw [Nat.mod_eq_of_lt (show n - i < n by omega)]
        have : i + (n - i) = n := by omega
        rw [this, Nat.mod_self]
    rw [harith, hexplt 0 (by omega)]
    rfl
  refine ⟨part1, part2, part3, ?_⟩
  -- part 4
  intro x y hx hy1 hy2
  obtain ⟨j, hj, hjy⟩ := expSeq_surj p g c hok y hy1 hy2
  rcases Nat.eq_zero_or_pos x with hx0 | hxp
  · subst hx0
    rw [gf_mul, if_pos (Or.inl rfl), gf_div, if_neg (by omega), if_pos rfl]
  · obtain ⟨i, hi, hix⟩ := expSeq_surj p g c hok x hxp hx
    have hmul : gf_mul (init_tables p g c) x y = expSeq p g c ((i + j) % n) := by
      rw [gf_mul, if_neg (by push_neg; constructor <;> omega), ← hix, ← hjy,
        hloge i hi, hloge j hj, init_tables_charac, ← hn,
        hexplt _ (Nat.mod_lt _ (by omega))]
    have hmulpos := hok.2 ((i + j) % n) (Nat.mod_lt _ (by omega))
    rw [hmul, gf_div, if_neg (by omega),
      if_neg (by omega), hloge _ (Nat.mod_lt _ (by omega)), ← hjy, hloge j hj,
      init_tables_charac, ← hn]
    have harith : ((i + j) % n + n - j) % n = i := by
      have h1 : (i + j) % n + n - j = (i + j) % n + (n - j) := by omega
      rw [h1, Nat.mod_add_mod]
      have h2 : i + j + (n - j) = i + n := by omega
      rw [h2, Nat.add_mod_right, Nat.mod_eq_of_lt hi]
    rw [harith, hexplt i hi, hix]

theorem field_invariants_witness :
    (1 ≤ 2 ^ 3 - 1 ∧ tables_ok 11 2 3) ∧
    ((∀ x, 1 ≤ x → x ≤ (init_tables 11 2 3).charac →
      (init_tables 11 2 3).exp.getD ((init_tables 11 2 3).log.getD x 0) 0 = x) ∧
    (∀ i, i < (init_tables 11 2 3).charac →
      (init_tables 11 2 3).exp.getD i 0
        = (init_tables 11 2 3).exp.getD (i + (init_tables 11 2 3).charac) 0) ∧
    (∀ x, 1 ≤ x → x ≤ (init_tables 11 2 3).charac →
      gf_mul (init_tables 11 2 3) x (gf_inverse (init_tables 11 2 3) x) = 1) ∧
    (∀ x y, x ≤ (init_tables 11 2 3).charac → 1 ≤ y → y ≤ (init_tables 11 2 3).charac →
      gf_div (init_tables 11 2 3) (gf_mul (init_tables 11 2 3) x y) y = .ok x)) :=
  ⟨⟨by decide, by decide⟩, field_invariants 11 2 3 (by decide) (by decide)⟩

/-! ## Claims C7 and C8: errata ordering and decode failure atomicity -/

/-- One round of the per-chunk erasure-position splitting of
`RSCodec.decode`: keep positions `≥ nsize`, shifted down by `nsize`. -/
def erase_shift (nsize : ℕ) (e : List ℕ) : List ℕ :=
  (e.filter (fun x => ¬ x < nsize)).map (fun x => x - nsize)

/-- The erasure list remaining before chunk `i` is processed. -/
def erase_rem (nsize : ℕ) : ℕ → List ℕ → List ℕ
  | 0, e => e
  | i + 1, e => erase_rem nsize i (erase_shift nsize e)

/-- The chunk-local erasure positions passed to `rs_correct_msg` for
chunk `i`. -/
def chunk_erase (nsize i : ℕ) (e : List ℕ) : List ℕ :=
  (erase_rem nsize i e).filter (fun x => x < nsize)

theorem chunk_erase_succ (nsize i : ℕ) (e : List ℕ) :
    chunk_erase nsize (i + 1) e = chunk_erase nsize i (erase_shift nsize e) := rfl

theorem filterMap_if {l : List ℕ} {f : ℕ → ℕ} {p : ℕ → Bool} :
    l.filterMap (fun i => if p i then some (f i) else none) = (l.filter p).map f := by
  induction l with
  | nil => rfl
  | cons x t ih =>
      by_cases h : p x <;> simp [List.filterMap_cons, List.filter_cons, h, ih]

/-- A successful Chien search returns strictly descending, chunk-local
positions. -/
theorem find_errors_ok (gf : GFTables) (errLoc : List ℕ) (nmess generator : ℕ)
    (errPos : List ℕ) (h : rs_find_errors gf errLoc nmess generator = .ok errPos) :
    List.Pairwise (fun a b => b < a) errPos ∧ ∀ p ∈ errPos, p < nmess := by
  simp only [rs_find_errors] at h
  split_ifs at h with hguard
  simp only [Except.ok.injEq] at h
  subst h
  rw [show (fun (i : ℕ) =>
        if gf_poly_eval gf errLoc (gf_pow gf generator (i : ℤ)) = 0
        then some (nmess - 1 - i) else none)
      = (fun (i : ℕ) =>
        if (decide (gf_poly_eval gf errLoc (gf_pow gf generator (i : ℤ)) = 0))
        then some (nmess - 1 - i) else none) from by
    funext i; split_ifs <;> simp_all]
  rw [filterMap_if]
  constructor
  · rw [List.pairwise_map]
    refine List.Pairwise.imp_of_mem (fun ha hb hab => ?_)
      (List.Pairwise.sublist (List.filter_sublist (List.range nmess))
        (List.pairwise_lt_range nmess))
    have h1 := List.mem_range.mp (List.mem_of_mem_filter ha)
    have h2 := List.mem_range.mp (List.mem_of_mem_filter hb)
    omega
  · intro p hp
    obtain ⟨i, hi, hip⟩ := List.mem_map.mp hp
    have := List.mem_range.mp (List.mem_of_mem_filter hi)
    omega

/-- On success, the errata list of `rs_correct_msg` is the supplied
erasure positions followed by the Chien-search error positions, which
are strictly descending and below the chunk length. -/
theorem correct_msg_errata (gf : GFTables) (msgIn : List ℕ) (nsym fcr generator : ℕ)
    (erasePos : List ℕ) (onlyEras : Bool) (out : List ℕ × List ℕ × List ℕ)
    (h : rs_correct_msg gf msgIn nsym fcr generator erasePos onlyEras = .ok out) :
    ∃ errs, out.2.2 = erasePos ++ errs ∧
      List.Pairwise (fun a b => b < a) errs ∧ ∀ p ∈ errs, p < msgIn.length := by
  simp only [rs_correct_msg] at h
  by_cases h1 : msgIn.length > gf.charac
  · rw [if_pos h1] at h; cases h
  rw [if_neg h1] at h
  by_cases h2 : erasePos.length > nsym
  · rw [if_pos h2] at h; cases h
  rw [if_neg h2] at h
  set msgOut := erasePos.foldl (fun (m : List ℕ) e => m.set e 0) msgIn with hmsgOut
  have hlen : msgOut.length = msgIn.length := by
    rw [hmsgOut]
    refine foldl_length_inv (fun a b => ?_) msgIn
    simp [List.length_set]
  by_cases h3 : (rs_calc_syndromes gf msgOut nsym fcr generator).foldl max 0 = 0
  · rw [if_pos h3] at h
    simp only [Except.ok.injEq] at h
    refine ⟨[], ?_, List.Pairwise.nil, by simp⟩
    rw [← h]
    simp
  rw [if_neg h3] at h
  cases onlyEras with
  | false =>
      rw [if_neg (by simp)] at h
      cases hloc : rs_find_error_locator gf
          (rs_forney_syndromes gf
            (rs_calc_syndromes gf msgOut nsym fcr generator) erasePos msgOut.length generator)
          nsym [] erasePos.length with
      | error e => rw [hloc] at h; simp [Bind.bind, Except.bind] at h
      | ok errLoc =>
          rw [hloc] at h
          simp only [Bind.bind, Except.bind] at h
          cases hfind : rs_find_errors gf errLoc.reverse msgOut.length generator with
          | error e => rw [hfind] at h; simp at h
          | ok errPos =>
              rw [hfind] at h
              simp only at h
              cases herr : rs_correct_errata gf msgOut
                  (rs_calc_syndromes gf msgOut nsym fcr generator)
                  (erasePos ++ errPos) fcr generator with
              | error e => rw [herr] at h; simp at h
              | ok msgOut2 =>
                  rw [herr] at h
                  simp only at h
                  split_ifs at h
                  obtain ⟨hpair, hbound⟩ := find_errors_ok gf errLoc.reverse
                    msgOut.length generator errPos hfind
                  simp only [Except.ok.injEq] at h
                  refine ⟨errPos, ?_, hpair, fun p hp => hlen ▸ hbound p hp⟩
                  rw [← h]
  | true =>
      rw [if_pos rfl] at h
      simp only [Bind.bind, Except.bind, pure, Except.pure] at h
      cases herr : rs_correct_errata gf msgOut
          (rs_calc_syndromes gf msgOut nsym fcr generator)
          (erasePos ++ []) fcr generator with
      | error e => rw [herr] at h; simp at h
      | ok msgOut2 =>
          rw [herr] at h
          simp only at h
          split_ifs at h
          simp only [Except.ok.injEq] at h
          refine ⟨[], ?_, List.Pairwise.nil, by simp⟩
          rw [← h]

theorem decode_chunks_errata (gf : GFTables) (nsym nsize fcr generator : ℕ)
    (onlyEras : Bool) :
    ∀ (fuel : ℕ) (data erase dec decFull errata : List ℕ),
      decode_chunks gf nsym nsize fcr generator onlyEras fuel data erase
        = .ok (dec, decFull, errata) →
      ∃ perChunk : List (List ℕ × List ℕ),
        perChunk.length = fuel ∧
        errata = (perChunk.map (fun pe => pe.1 ++ pe.2)).join ∧
        (∀ i, i < fuel → (perChunk.getD i ([], [])).1 = chunk_erase nsize i erase) ∧
        (∀ pe ∈ perChunk,
          List.Pairwise (fun a b => b < a) pe.2 ∧ ∀ p ∈ pe.2, p < nsize) := by
  intro fuel
  induction fuel with
  | zero =>
      intro data erase dec decFull errata h
      simp only [decode_chunks, Except.ok.injEq, Prod.mk.injEq] at h
      refine ⟨[], rfl, by simp [← h.2.2], fun i hi => absurd hi (by omega), by simp⟩
  | succ n ih =>
      intro data erase dec decFull errata h
      simp only [decode_chunks] at h
      cases hr : rs_correct_msg gf (data.take nsize) nsym fcr generator
          (erase.filter (fun x => x < nsize)) onlyEras with
      | error e => rw [hr] at h; simp [Bind.bind, Except.bind] at h
      | ok r =>
          rw [hr] at h
          simp only [Bind.bind, Except.bind] at h
          cases hrest : decode_chunks gf nsym nsize fcr generator onlyEras n
              (data.drop nsize) (erase_shift nsize erase) with
          | error e =>
              rw [show erase_shift nsize erase
                  = (erase.filter (fun x => ¬ x < nsize)).map (fun x => x - nsize) from rfl]
                at hrest
              rw [hrest] at h
              simp at h
          | ok rest =>
              rw [show erase_shift nsize erase
                  = (erase.filter (fun x => ¬ x < nsize)).map (fun x => x - nsize) from rfl]
                at hrest
              rw [hrest] at h
              simp only [Except.ok.injEq, Prod.mk.injEq] at h
              obtain ⟨errs, herrs, hpair, hbound⟩ :=
                correct_msg_errata gf (data.take nsize) nsym fcr generator
                  (erase.filter (fun x => x < nsize)) onlyEras r hr
              obtain ⟨perChunk, hpclen, hpcjoin, hpcidx, hpcprops⟩ :=
                ih (data.drop nsize) (erase_shift nsize erase) rest.1 rest.2.1 rest.2.2
                  (by rw [show erase_shift nsize erase
                        = (erase.filter (fun x => ¬ x < nsize)).map (fun x => x - nsize)
                        from rfl]; rw [hrest])
              refine ⟨(erase.filter (fun x => x < nsize), errs) :: perChunk, by simp [hpclen],
                ?_, ?_, ?_⟩
              · rw [← h.2.2, herrs, List.map_cons, List.join]
                simp [hpcjoin]
              · intro i hi
                cases i with
                | zero => rfl
                | succ i =>
                    rw [chunk_erase_succ]
                    simpa using hpcidx i (by omega)
              · intro pe hpe
                rcases List.mem_cons.mp hpe with hpe0 | hpemem
                · subst hpe0
                  refine ⟨hpair, fun p hp => ?_⟩
                  have := hbound p hp
                  rw [List.length_take] at this
                  omega
                · exact hpcprops pe hpemem

/-- Claim C7: the errata positions returned by a successful
`RSCodec.decode` are the concatenation, in chunk order, of per-chunk
lists; each chunk contributes its supplied (chunk-local) erasure
positions first, followed by a strictly descending list of chunk-local
error positions (the Chien-search output, which scans `i = 0, 1, …` and
records positions `nmess-1-i`). -/
theorem decode_errata_order (gf : GFTables) (nsym nsize fcr generator : ℕ)
    (data erase : List ℕ) (onlyEras : Bool) (dec decFull errata : List ℕ)
    (h : RSCodec_decode gf nsym nsize fcr generator data erase onlyEras
      = .ok (dec, decFull, errata)) :
    ∃ perChunk : List (List ℕ × List ℕ),
      perChunk.length = (data.length + nsize - 1) / nsize ∧
      errata = (perChunk.map (fun pe => pe.1 ++ pe.2)).join ∧
      (∀ i, i < perChunk.length →
        (perChunk.getD i ([], [])).1 = chunk_erase nsize i erase) ∧
      (∀ pe ∈ perChunk,
        List.Pairwise (fun a b => b < a) pe.2 ∧ ∀ p ∈ pe.2, p < nsize) := by
  obtain ⟨perChunk, h1, h2, h3, h4⟩ :=
    decode_chunks_errata gf nsym nsize fcr generator onlyEras
      ((data.length + nsize - 1) / nsize) data erase dec decFull errata h
  exact ⟨perChunk, h1, h2, fun i hi => h3 i (h1 ▸ hi), h4⟩

theorem decode_errata_order_witness :
    RSCodec_decode gf8 4 7 0 2 [1, 5, 3, 7, 6, 4, 5] [4] false
      = .ok ([1, 2, 3], [1, 2, 3, 7, 6, 4, 5], [4, 1]) ∧
    (∃ perChunk : List (List ℕ × List ℕ),
      perChunk.length = (([1, 5, 3, 7, 6, 4, 5] : List ℕ).length + 7 - 1) / 7 ∧
      ([4, 1] : List ℕ) = (perChunk.map (fun pe => pe.1 ++ pe.2)).join ∧
      (∀ i, i < perChunk.length →
        (perChunk.getD i ([], [])).1 = chunk_erase 7 i [4]) ∧
      (∀ pe ∈ perChunk,
        List.Pairwise (fun a b => b < a) pe.2 ∧ ∀ p ∈ pe.2, p < 7)) :=
  ⟨by decide,
   decode_errata_order gf8 4 7 0 2 [1, 5, 3, 7, 6, 4, 5] [4] false
     [1, 2, 3] [1, 2, 3, 7, 6, 4, 5] [4, 1] (by decide)⟩

theorem decode_chunks_error_iff (gf : GFTables) (nsym nsize fcr generator : ℕ)
    (onlyEras : Bool) :
    ∀ (fuel : ℕ) (data erase : List ℕ),
      (∃ s, decode_chunks gf nsym nsize fcr generator onlyEras fuel data erase
        = .error s) ↔
      (∃ i, i < fuel ∧ ∃ s,
        rs_correct_msg gf ((data.drop (i * nsize)).take nsize) nsym fcr generator
          (chunk_erase nsize i erase) onlyEras = .error s) := by
  intro fuel
  induction fuel with
  | zero =>
      intro data erase
      constructor
      · rintro ⟨s, hs⟩; cases hs
      · rintro ⟨i, hi, _⟩; omega
  | succ n ih =>
      intro data erase
      simp only [decode_chunks]
      cases hr : rs_correct_msg gf (data.take nsize) nsym fcr generator
          (erase.filter (fun x => x < nsize)) onlyEras with
      | error e =>
          constructor
          · intro _
            refine ⟨0, by omega, e, ?_⟩
            simpa [chunk_erase, erase_rem, Nat.zero_mul, List.drop_zero] using hr
          · intro _
            exact ⟨e, rfl⟩
      | ok r =>
          simp only [Bind.bind, Except.bind]
          cases hrest : decode_chunks gf nsym nsize fcr generator onlyEras n
              (data.drop nsize)
              ((erase.filter (fun x => ¬ x < nsize)).map (fun x => x - nsize)) with
          | ok rest =>
              constructor
              · rintro ⟨s, hs⟩
                cases hs
              · rintro ⟨i, hi, s, hsi⟩
                exfalso
                cases i with
                | zero =>
                    simp only [Nat.zero_mul, List.drop_zero] at hsi
                    rw [show chunk_erase nsize 0 erase
                        = erase.filter (fun x => x < nsize) from rfl, hr] at hsi
                    cases hsi
                | succ i =>
                    have hex : ∃ s, decode_chunks gf nsym nsize fcr generator onlyEras n
                        (data.drop nsize) (erase_shift nsize erase) = .error s := by
                      refine (ih (data.drop nsize) (erase_shift nsize erase)).mpr
                        ⟨i, by omega, s, ?_⟩
                      rw [List.drop_drop, ← chunk_erase_succ]
                      rw [show nsize + i * nsize = (i + 1) * nsize by ring]
                      exact hsi
                    obtain ⟨s2, hs2⟩ := hex
                    rw [show erase_shift nsize erase
                        = (erase.filter (fun x => ¬ x < nsize)).map (fun x => x - nsize)
                        from rfl, hrest] at hs2
                    cases hs2
          | error e =>
              constructor
              · intro _
                obtain ⟨i, hi, s, hsi⟩ :=
                  (ih (data.drop nsize) (erase_shift nsize erase)).mp
                    ⟨e, by
                      rw [show erase_shift nsize erase
                        = (erase.filter (fun x => ¬ x < nsize)).map (fun x => x - nsize)
                        from rfl]
                      exact hrest⟩
                refine ⟨i + 1, by omega, s, ?_⟩
                rw [List.drop_drop, ← chunk_erase_succ] at hsi
                rw [show (i + 1) * nsize = nsize + i * nsize by ring]
                exact hsi
              · intro _
                exact ⟨e, rfl⟩

/-- Claim C8: `RSCodec.decode` fails exactly when the per-chunk decode
of some chunk fails (a failure in any chunk aborts the whole call), and
a failing call returns only the error — never any (partially)
corrected buffer.  (In the source all writes go to fresh `bytearray`
copies of the input — `msg_out = bytearray(msg_in)` — so the caller's
buffer is never mutated; in this embedding buffers are immutable
values.) -/
theorem decode_failure_atomicity (gf : GFTables) (nsym nsize fcr generator : ℕ)
    (data erase : List ℕ) (onlyEras : Bool) :
    ((∃ s, RSCodec_decode gf nsym nsize fcr generator data erase onlyEras = .error s) ↔
      (∃ i, i < (data.length + nsize - 1) / nsize ∧ ∃ s,
        rs_correct_msg gf ((data.drop (i * nsize)).take nsize) nsym fcr generator
          (chunk_erase nsize i erase) onlyEras = .error s)) ∧
    (∀ s, RSCodec_decode gf nsym nsize fcr generator data erase onlyEras = .error s →
      ∀ r, RSCodec_decode gf nsym nsize fcr generator data erase onlyEras ≠ .ok r) := by
  refine ⟨decode_chunks_error_iff gf nsym nsize fcr generator onlyEras
    ((data.length + nsize - 1) / nsize) data erase, ?_⟩
  intro s hs r hr
  rw [hs] at hr
  cases hr

/-! ### Claim C2: algebraic interpretation of the default GF(2^8) tables

To settle the clean round-trip claim we interpret table entries as
elements of `(ZMod 2)[X] / (x^8 + x^4 + x^3 + x^2 + 1)` (the default
`prim = 0x11d = 285`) and prove that the encoder produces codewords
whose syndromes all vanish, so that `rs_correct_msg` takes its clean
early return.  These definitions are proof-side interpretation devices;
the code embeddings above are unchanged. -/

/-- The polynomial over GF(2) whose coefficients are the bits of `n`. -/
noncomputable def natToPoly : ℕ → Polynomial (ZMod 2)
  | 0 => 0
  | n + 1 =>
      Polynomial.C (((n + 1) % 2 : ℕ) : ZMod 2) + Polynomial.X * natToPoly ((n + 1) / 2)
  decreasing_by omega

theorem natToPoly_coeff (n : ℕ) : ∀ k, (natToPoly n).coeff k
    = if n.testBit k then 1 else 0 := by
  induction n using Nat.strong_induction_on with
  | _ n ih =>
    match n with
    | 0 => intro k; simp [natToPoly, Nat.zero_testBit]
    | n + 1 =>
      intro k
      rw [natToPoly]
      cases k with
      | zero =>
          rw [Polynomial.coeff_add, Polynomial.coeff_C, if_pos rfl,
            Polynomial.mul_coeff_zero, Polynomial.coeff_X_zero, zero_mul, add_zero,
            Nat.testBit_zero]
          rcases Nat.mod_two_eq_zero_or_one (n + 1) with h | h <;> simp [h]
      | succ k =>
          rw [Polynomial.coeff_add, Polynomial.coeff_C, if_neg (by omega),
            Polynomial.coeff_X_mul, zero_add,
            ih ((n + 1) / 2) (Nat.div_lt_self (Nat.succ_pos n) one_lt_two) k,
            Nat.testBit_div_two]

theorem natToPoly_xor (a b : ℕ) :
    natToPoly (a ^^^ b) = natToPoly a + natToPoly b := by
  ext k
  rw [Polynomial.coeff_add, natToPoly_coeff, natToPoly_coeff, natToPoly_coeff,
    Nat.testBit_xor]
  cases ha : a.testBit k <;> cases hb : b.testBit k <;> simp <;> decide

theorem natToPoly_two_mul (n : ℕ) :
    natToPoly (2 * n) = Polynomial.X * natToPoly n := by
  ext k
  cases k with
  | zero =>
      rw [natToPoly_coeff, Polynomial.mul_coeff_zero, Polynomial.coeff_X_zero,
        zero_mul, Nat.testBit_zero]
      simp [Nat.mul_mod_right]
  | succ k =>
      rw [natToPoly_coeff, Polynomial.coeff_X_mul, natToPoly_coeff,
        ← Nat.testBit_div_two, Nat.mul_div_cancel_left n (by norm_num : 0 < 2)]

theorem natToPoly_eq_zero {n : ℕ} (h : natToPoly n = 0) : n = 0 := by
  refine Nat.eq_of_testBit_eq (fun i => ?_)
  have hc := congrArg (fun p => Polynomial.coeff p i) h
  simp only [natToPoly_coeff, Polynomial.coeff_zero] at hc
  rw [Nat.zero_testBit]
  cases ht : n.testBit i
  · rfl
  · rw [if_pos ht] at hc
    exact absurd hc one_ne_zero

theorem natToPoly_degree_lt {n k : ℕ} (h : n < 2 ^ k) :
    (natToPoly n).degree < (k : WithBot ℕ) := by
  rw [Polynomial.degree_lt_iff_coeff_zero]
  intro m hm
  rw [natToPoly_coeff,
    Nat.testBit_lt_two_pow (lt_of_lt_of_le h (Nat.pow_le_pow_right (by norm_num) hm)),
    if_neg (by simp)]

theorem natToPoly_one : natToPoly 1 = 1 := by
  ext k
  rw [natToPoly_coeff, Polynomial.coeff_one]
  match k with
  | 0 => simp
  | (k + 1) =>
      rw [Nat.testBit_lt_two_pow
        (lt_of_lt_of_le (by norm_num) (Nat.pow_le_pow_right (by norm_num) (by omega : 1 ≤ k + 1)))]
      simp

theorem natToPoly_two : natToPoly 2 = Polynomial.X := by
  ext k
  rw [natToPoly_coeff, Polynomial.coeff_X]
  match k with
  | 0 => simp
  | 1 => rw [if_pos (by decide), if_pos rfl]
  | (k + 2) =>
      rw [Nat.testBit_lt_two_pow
        (lt_of_lt_of_le (by norm_num) (Nat.pow_le_pow_right (by norm_num) (by omega : 2 ≤ k + 2)))]
      simp

theorem natToPoly_285_coeff8 : (natToPoly 285).coeff 8 = 1 := by
  rw [natToPoly_coeff, if_pos (by decide)]

/-- `(ZMod 2)[X]/(0x11d)`: the field in which table entries are read. -/
abbrev GF256 : Type :=
  Polynomial (ZMod 2) ⧸ Ideal.span {natToPoly 285}

/-- Interpretation of a table entry (a byte) as an element of `GF256`. -/
noncomputable def chi (n : ℕ) : GF256 :=
  Ideal.Quotient.mk (Ideal.span {natToPoly 285}) (natToPoly n)

theorem chi_xor (a b : ℕ) : chi (a ^^^ b) = chi a + chi b := by
  rw [chi, chi, chi, natToPoly_xor, map_add]

theorem natToPoly_zero : natToPoly 0 = 0 := by
  rw [natToPoly]

theorem chi_zero : chi 0 = 0 := by
  rw [chi, natToPoly_zero, map_zero]

theorem chi_one : chi 1 = 1 := by
  rw [chi, natToPoly_one, map_one]

theorem chi_285 : chi 285 = 0 := by
  rw [chi, Ideal.Quotient.eq_zero_iff_mem]
  exact Ideal.subset_span rfl

theorem chi_two_mul (n : ℕ) : chi (2 * n) = chi 2 * chi n := by
  rw [chi, chi, chi, natToPoly_two_mul, natToPoly_two, map_mul]

theorem chi_eq_zero {n : ℕ} (hn : n < 256) (h : chi n = 0) : n = 0 := by
  rw [chi, Ideal.Quotient.eq_zero_iff_mem, Ideal.mem_span_singleton] at h
  refine natToPoly_eq_zero (Polynomial.eq_zero_of_dvd_of_degree_lt h ?_)
  exact lt_of_lt_of_le (natToPoly_degree_lt (show n < 2 ^ 8 by omega))
    (Polynomial.le_degree_of_ne_zero (by rw [natToPoly_285_coeff8]; exact one_ne_zero))

theorem GF256_add_self (r : GF256) : r + r = 0 := by
  obtain ⟨p, rfl⟩ := Ideal.Quotient.mk_surjective r
  rw [← map_add]
  have hp : p + p = 0 := by
    ext k
    rw [Polynomial.coeff_add, Polynomial.coeff_zero]
    exact (by decide : ∀ a : ZMod 2, a + a = 0) _
  rw [hp, map_zero]

theorem GF256_neg (r : GF256) : -r = r := by
  exact neg_eq_of_add_eq_zero_left (GF256_add_self r)

/-- One step of the `init_tables` running product in the default field:
`gf_mult_noLUT(x, 2, 285, 256)` is `2x`, reduced by `285` when bit 8
overflows. -/
theorem step_unfold (x : ℕ) :
    gf_mult_noLUT x 2 285 256 true
      = if (2 * x) &&& 256 ≠ 0 then (2 * x) ^^^ 285 else 2 * x := by
  simp only [gf_mult_noLUT, gf_mult_noLUT_loop]
  norm_num

theorem step_chi (x : ℕ) :
    chi (gf_mult_noLUT x 2 285 256 true) = chi 2 * chi x := by
  rw [step_unfold]
  split_ifs with h
  · rw [chi_xor, chi_285, add_zero, chi_two_mul]
  · rw [chi_two_mul]

theorem step_bound : ∀ x, x < 256 → gf_mult_noLUT x 2 285 256 true < 256 := by
  decide

theorem expSeqD_succ (i : ℕ) :
    expSeq 285 2 8 (i + 1) = gf_mult_noLUT (expSeq 285 2 8 i) 2 285 256 true := by
  rw [expSeq]
  norm_num

theorem expSeqD_lt (i : ℕ) : expSeq 285 2 8 i < 256 := by
  induction i with
  | zero => norm_num [expSeq]
  | succ i ih => rw [expSeqD_succ]; exact step_bound _ ih

theorem chi_expSeqD (i : ℕ) : chi (expSeq 285 2 8 i) = chi 2 ^ i := by
  induction i with
  | zero => rw [show expSeq 285 2 8 0 = 1 from rfl, chi_one, pow_zero]
  | succ i ih => rw [expSeqD_succ, step_chi, ih]; ring

theorem expSeqD_254 : expSeq 285 2 8 254 = 142 := by
  have h1 : gfD.exp.getD 254 0 = expSeq 285 2 8 254 := by
    rw [show gfD = init_tables 285 2 8 from rfl,
      init_tables_exp_getD 285 2 8 254 (by norm_num), if_pos (by norm_num)]
  have h2 : gfD.exp.getD 254 0 = 142 := by rw [gfD_eq_lit]; decide
  rw [← h1, h2]

theorem expSeqD_255 : expSeq 285 2 8 255 = 1 := by
  rw [expSeqD_succ, expSeqD_254]
  decide

theorem alpha_pow_255 : chi 2 ^ 255 = 1 := by
  rw [← chi_expSeqD, expSeqD_255, chi_one]

theorem alpha_pow_mod (k : ℕ) : chi 2 ^ (k % 255) = chi 2 ^ k := by
  conv_rhs => rw [← Nat.mod_add_div k 255]
  rw [pow_add, pow_mul, alpha_pow_255, one_pow, mul_one]

theorem getD_take (l : List ℕ) (n j : ℕ) (h : j < n) :
    (l.take n).getD j 0 = l.getD j 0 := by
  rw [List.getD_eq_getElem?_getD, List.getD_eq_getElem?_getD, List.getElem?_take, if_pos h]

/-- The first half of the literal default exp table. -/
def gfDexpHalf : List ℕ := gfDexpLit.take 255

theorem gfDexpHalf_length : gfDexpHalf.length = 255 := by decide

theorem gfDexpHalf_nodup : gfDexpHalf.Nodup := by decide

theorem gfDexpHalf_bounds : ∀ v ∈ gfDexpHalf, 1 ≤ v ∧ v ≤ 255 := by decide

theorem gfD_exp_getD_lt (j : ℕ) (hj : j < 255) :
    gfD.exp.getD j 0 = expSeq 285 2 8 j := by
  have e1 : ((2 : ℕ) ^ 8 - 1) * 2 = 510 := by norm_num
  have e2 : (2 : ℕ) ^ 8 - 1 = 255 := by norm_num
  rw [show gfD = init_tables 285 2 8 from rfl,
    init_tables_exp_getD 285 2 8 j (by rw [e1]; omega), if_pos (by rw [e2]; omega)]

theorem gfD_exp_getD_ge (j : ℕ) (h1 : 255 ≤ j) (h2 : j < 510) :
    gfD.exp.getD j 0 = expSeq 285 2 8 (j - 255) := by
  have e1 : ((2 : ℕ) ^ 8 - 1) * 2 = 510 := by norm_num
  have e2 : (2 : ℕ) ^ 8 - 1 = 255 := by norm_num
  rw [show gfD = init_tables 285 2 8 from rfl,
    init_tables_exp_getD 285 2 8 j (by rw [e1]; omega), if_neg (by rw [e2]; omega), e2]

theorem gfD_exp_length : gfD.exp.length = 510 := by
  rw [show gfD = init_tables 285 2 8 from rfl, init_tables_exp, dbl_fold_length]
  norm_num

theorem gfD_exp_getD_bound (j : ℕ) : gfD.exp.getD j 0 < 256 := by
  by_cases h1 : j < 255
  · rw [gfD_exp_getD_lt j h1]; exact expSeqD_lt _
  · by_cases h2 : j < 510
    · rw [gfD_exp_getD_ge j (by omega) h2]; exact expSeqD_lt _
    · rw [List.getD_eq_default _ _ (by rw [gfD_exp_length]; omega)]; norm_num

theorem gfD_expSeq_lit (j : ℕ) (hj : j < 255) :
    expSeq 285 2 8 j = gfDexpHalf.getD j 0 := by
  rw [gfDexpHalf, getD_take _ _ _ hj, ← gfD_exp_getD_lt j hj, gfD_eq_lit]
  rfl

theorem gfD_tables_ok : tables_ok 285 2 8 := by
  have e2 : (2 : ℕ) ^ 8 - 1 = 255 := by norm_num
  unfold tables_ok
  rw [e2]
  constructor
  · intro i hi j hj he
    rw [gfD_expSeq_lit i hi, gfD_expSeq_lit j hj] at he
    have hi' : i < gfDexpHalf.length := by rw [gfDexpHalf_length]; omega
    have hj' : j < gfDexpHalf.length := by rw [gfDexpHalf_length]; omega
    rw [List.getD_eq_getElem _ _ hi', List.getD_eq_getElem _ _ hj'] at he
    exact (List.Nodup.getElem_inj_iff gfDexpHalf_nodup).mp he
  · intro i hi
    rw [gfD_expSeq_lit i hi]
    exact gfDexpHalf_bounds _ (getD_mem_of_lt (by rw [gfDexpHalf_length]; omega))

theorem gfD_charac : gfD.charac = 255 := rfl

theorem gfD_log_expSeq (i : ℕ) (hi : i < 255) :
    gfD.log.getD (expSeq 285 2 8 i) 0 = i := by
  have e2 : (2 : ℕ) ^ 8 - 1 = 255 := by norm_num
  refine init_tables_log_getD 285 2 8 gfD_tables_ok.1
    (fun a ha => (gfD_tables_ok.2 a ha).2) i (by rw [e2]; omega)

/-- For `x ∈ [1, 255]`: `log x < 255`, `exp[log x] = x` and
`χ x = α ^ log x`. -/
theorem gfD_log_spec (x : ℕ) (h1 : 1 ≤ x) (h2 : x ≤ 255) :
    gfD.log.getD x 0 < 255 ∧ gfD.exp.getD (gfD.log.getD x 0) 0 = x ∧
      chi x = chi 2 ^ (gfD.log.getD x 0) := by
  have e2 : (2 : ℕ) ^ 8 - 1 = 255 := by norm_num
  obtain ⟨i, hi, hx⟩ := expSeq_surj 285 2 8 gfD_tables_ok x h1 (by rw [e2]; omega)
  rw [e2] at hi
  subst hx
  rw [gfD_log_expSeq i hi]
  exact ⟨hi, gfD_exp_getD_lt i hi, chi_expSeqD i⟩

theorem gfD_log_two : gfD.log.getD 2 0 = 1 := by
  have h : expSeq 285 2 8 1 = 2 := by decide
  rw [← h, gfD_log_expSeq 1 (by norm_num)]

/-- `gf_mul` in the default field is `χ`-multiplicative and stays below
256. -/
theorem gfD_chi_mul (x y : ℕ) (hx : x < 256) (hy : y < 256) :
    chi (gf_mul gfD x y) = chi x * chi y ∧ gf_mul gfD x y < 256 := by
  by_cases hx0 : x = 0
  · subst hx0
    rw [gf_mul, if_pos (Or.inl rfl), chi_zero, zero_mul]
    exact ⟨rfl, by norm_num⟩
  by_cases hy0 : y = 0
  · subst hy0
    rw [gf_mul, if_pos (Or.inr rfl), chi_zero, mul_zero]
    exact ⟨rfl, by norm_num⟩
  obtain ⟨hlx, _, hcx⟩ := gfD_log_spec x (by omega) (by omega)
  obtain ⟨hly, _, hcy⟩ := gfD_log_spec y (by omega) (by omega)
  rw [gf_mul, if_neg (by tauto), gfD_charac]
  have hidx : (gfD.log.getD x 0 + gfD.log.getD y 0) % 255 < 255 := Nat.mod_lt _ (by norm_num)
  rw [gfD_exp_getD_lt _ hidx, chi_expSeqD, alpha_pow_mod, pow_add, hcx, hcy]
  exact ⟨rfl, expSeqD_lt _⟩

/-- `gf_pow(2, i)` in the default field is `α ^ i` under `χ`, and below
256. -/
theorem gfD_chi_pow_two (i : ℕ) :
    chi (gf_pow gfD 2 (i : ℤ)) = chi 2 ^ i ∧ gf_pow gfD 2 (i : ℤ) < 256 := by
  rw [gf_pow, gfD_log_two, gfD_charac]
  have h1 : (((1 : ℕ) : ℤ) * (i : ℤ)).emod ((255 : ℕ) : ℤ) = ((i % 255 : ℕ) : ℤ) := by
    push_cast
    rw [one_mul]
    rfl
  rw [h1, Int.toNat_natCast]
  have hidx : i % 255 < 255 := Nat.mod_lt _ (by norm_num)
  rw [gfD_exp_getD_lt _ hidx, chi_expSeqD, alpha_pow_mod]
  exact ⟨rfl, expSeqD_lt _⟩

/-- Reference polynomial evaluation over `GF256` (big-endian
coefficient list, Horner form, mirroring `gf_poly_eval`). -/
noncomputable def evalR (β : GF256) (l : List GF256) : GF256 :=
  l.foldl (fun acc c => acc * β + c) 0

theorem evalR_foldl (β : GF256) : ∀ (l : List GF256) (s : GF256),
    l.foldl (fun acc c => acc * β + c) s
      = s * β ^ l.length + l.foldl (fun acc c => acc * β + c) 0 := by
  intro l
  induction l with
  | nil => intro s; simp
  | cons a t ih =>
      intro s
      rw [List.foldl_cons, ih (s * β + a), List.foldl_cons, ih (0 * β + a),
        List.length_cons]
      ring

theorem evalR_cons (β a : GF256) (t : List GF256) :
    evalR β (a :: t) = a * β ^ t.length + evalR β t := by
  rw [evalR, evalR, List.foldl_cons, evalR_foldl]
  ring

theorem evalR_append (β : GF256) (a b : List GF256) :
    evalR β (a ++ b) = evalR β a * β ^ b.length + evalR β b := by
  rw [evalR, evalR, evalR, List.foldl_append, evalR_foldl]

theorem evalR_replicate_zero (β : GF256) (n : ℕ) :
    evalR β (List.replicate n 0) = 0 := by
  induction n with
  | zero => rfl
  | succ n ih => rw [List.replicate_succ, evalR_cons, ih, zero_mul, zero_add]

theorem evalR_map_mul (β γ : GF256) (l : List GF256) :
    evalR β (l.map (fun r => γ * r)) = γ * evalR β l := by
  induction l with
  | nil => simp [evalR]
  | cons a t ih =>
      rw [List.map_cons, evalR_cons, evalR_cons, ih, List.length_map]
      ring

theorem evalR_zipWith_add (β : GF256) : ∀ (a b : List GF256), a.length = b.length →
    evalR β (List.zipWith (· + ·) a b) = evalR β a + evalR β b := by
  intro a
  induction a with
  | nil =>
      intro b hb
      cases b with
      | nil => simp [evalR]
      | cons y u => simp at hb
  | cons x t ih =>
      intro b hb
      cases b with
      | nil => simp at hb
      | cons y u =>
          have ht : t.length = u.length := by simpa using hb
          rw [List.zipWith_cons_cons, evalR_cons, evalR_cons, evalR_cons, ih u ht,
            List.length_zipWith, ht, min_self]
          ring

/-- The Horner loop of `gf_poly_eval` under `χ`, with the running value
staying below 256. -/
theorem horner_fold_chi (x : ℕ) (hx : x < 256) :
    ∀ (t : List ℕ) (s : ℕ), s < 256 → (∀ v ∈ t, v < 256) →
      chi (t.foldl (fun y c => gf_mul gfD y x ^^^ c) s)
          = (t.map chi).foldl (fun acc c => acc * chi x + c) (chi s) ∧
        t.foldl (fun y c => gf_mul gfD y x ^^^ c) s < 256 := by
  intro t
  induction t with
  | nil => intro s hs _; exact ⟨rfl, hs⟩
  | cons c t ih =>
      intro s hs hb
      rw [List.foldl_cons, List.map_cons, List.foldl_cons]
      have hc : c < 256 := hb c (List.mem_cons_self c t)
      have hmul := gfD_chi_mul s x hs hx
      have h8 : (256 : ℕ) = 2 ^ 8 := by norm_num
      have hstep : gf_mul gfD s x ^^^ c < 256 := by
        rw [h8]
        exact Nat.xor_lt_two_pow (h8 ▸ hmul.2) (h8 ▸ hc)
      have H := ih (gf_mul gfD s x ^^^ c) hstep (fun v hv => hb v (List.mem_cons_of_mem _ hv))
      have hinit : chi (gf_mul gfD s x ^^^ c) = chi s * chi x + chi c := by
        rw [chi_xor, hmul.1]
      exact ⟨by rw [H.1, hinit], H.2⟩

/-- `gf_poly_eval` in the default field under `χ` is `evalR`, and the
result stays below 256. -/
theorem gf_poly_eval_chi (l : List ℕ) (hl : ∀ v ∈ l, v < 256) (x : ℕ) (hx : x < 256) :
    chi (gf_poly_eval gfD l x) = evalR (chi x) (l.map chi) ∧ gf_poly_eval gfD l x < 256 := by
  cases l with
  | nil =>
      refine ⟨?_, ?_⟩
      · rw [show gf_poly_eval gfD [] x = 0 from rfl, chi_zero]; rfl
      · rw [show gf_poly_eval gfD [] x = 0 from rfl]; norm_num
  | cons h t =>
      have hdrop : ((h :: t).drop 1) = t := rfl
      rw [gf_poly_eval, hdrop, List.getD_cons_zero]
      have H := horner_fold_chi x hx t h (hl h (List.mem_cons_self h t))
        (fun v hv => hl v (List.mem_cons_of_mem _ hv))
      refine ⟨?_, H.2⟩
      rw [H.1, evalR, List.map_cons, List.foldl_cons, zero_mul, zero_add]

theorem set_getD_self (l : List ℕ) (k : ℕ) (hk : k < l.length) :
    l.set k (l.getD k 0) = l := by
  apply List.ext_getElem (by rw [List.length_set])
  intro i h1 h2
  rw [List.getElem_set]
  split_ifs with hik
  · subst hik
    exact List.getD_eq_getElem l 0 hk
  · rfl

theorem eq_of_getD (l1 l2 : List ℕ) (hl : l1.length = l2.length)
    (h : ∀ k, k < l1.length → l1.getD k 0 = l2.getD k 0) : l1 = l2 := by
  apply List.ext_getElem hl
  intro i h1 h2
  rw [← List.getD_eq_getElem l1 0 h1, ← List.getD_eq_getElem l2 0 h2]
  exact h i h1

theorem getD_map (f : ℕ → ℕ) (p : List ℕ) (k : ℕ) (hk : k < p.length) :
    (p.map f).getD k 0 = f (p.getD k 0) := by
  rw [List.getD_eq_getElem _ _ (by rw [List.length_map]; exact hk),
    List.getElem_map, List.getD_eq_getElem _ _ hk]

/-- Congruence for `foldl` under an invariant preserved along the fold. -/
theorem foldl_congr_inv {α β : Type} (Inv : α → Prop) {f g : α → β → α} {l : List β}
    (init : α) (hinit : Inv init)
    (h : ∀ a b, Inv a → b ∈ l → Inv (f a b) ∧ f a b = g a b) :
    l.foldl f init = l.foldl g init := by
  induction l generalizing init with
  | nil => rfl
  | cons x t ih =>
      rw [List.foldl_cons, List.foldl_cons]
      obtain ⟨hi2, he⟩ := h init x hinit (List.mem_cons_self x t)
      rw [← he]
      exact ih (f init x) hi2 (fun a b ha hb => h a b ha (List.mem_cons_of_mem _ hb))

/-- Closed form of a left fold of xor-writes at pairwise distinct
indices: the length is preserved, each targeted slot accumulates its
write, and every other slot is untouched. -/
theorem fold_set_xor (idx g : ℕ → ℕ) : ∀ (n : ℕ) (st : List ℕ),
    (∀ a b, a < n → b < n → idx a = idx b → a = b) →
    (∀ a, a < n → idx a < st.length) →
    ((List.range n).foldl (fun s i => s.set (idx i) (s.getD (idx i) 0 ^^^ g i)) st).length
        = st.length ∧
    (∀ a, a < n →
      ((List.range n).foldl (fun s i => s.set (idx i) (s.getD (idx i) 0 ^^^ g i)) st).getD
          (idx a) 0
        = st.getD (idx a) 0 ^^^ g a) ∧
    (∀ k, (∀ a, a < n → idx a ≠ k) →
      ((List.range n).foldl (fun s i => s.set (idx i) (s.getD (idx i) 0 ^^^ g i)) st).getD k 0
        = st.getD k 0) := by
  intro n
  induction n with
  | zero =>
      intro st _ _
      exact ⟨rfl, fun a ha => absurd ha (by omega), fun k _ => rfl⟩
  | succ n ih =>
      intro st hinj hbound
      obtain ⟨hlen, hP2, hP3⟩ := ih st
        (fun a b ha hb => hinj a b (by omega) (by omega))
        (fun a ha => hbound a (by omega))
      have hsplit : (List.range (n + 1)).foldl
            (fun s i => s.set (idx i) (s.getD (idx i) 0 ^^^ g i)) st
          = ((List.range n).foldl (fun s i => s.set (idx i) (s.getD (idx i) 0 ^^^ g i)) st).set
              (idx n)
              (((List.range n).foldl (fun s i => s.set (idx i) (s.getD (idx i) 0 ^^^ g i))
                  st).getD (idx n) 0 ^^^ g n) := by
        rw [List.range_succ, List.foldl_append, List.foldl_cons, List.foldl_nil]
      have hne_n : ∀ a, a < n → idx a ≠ idx n :=
        fun a ha he => absurd (hinj a n (by omega) (by omega) he) (by omega)
      have hprev_n : ((List.range n).foldl
            (fun s i => s.set (idx i) (s.getD (idx i) 0 ^^^ g i)) st).getD (idx n) 0
          = st.getD (idx n) 0 := hP3 (idx n) hne_n
      refine ⟨by rw [hsplit, List.length_set]; exact hlen, ?_, ?_⟩
      · intro a ha
        rw [hsplit]
        by_cases han : a = n
        · subst han
          rw [getD_set_self _ _ _ (by rw [hlen]; exact hbound a (by omega)), hprev_n]
        · rw [getD_set_ne _ _ (fun he => han (hinj a n (by omega) (by omega) he.symm))]
          exact hP2 a (by omega)
      · intro k hk
        rw [hsplit, getD_set_ne _ _ (hk n (by omega))]
        exact hP3 k (fun a ha => hk a (by omega))

theorem foldl_congr_len {f g : List ℕ → ℕ → List ℕ} {l : List ℕ} (N : ℕ)
    (init : List ℕ) (hinit : init.length = N)
    (h : ∀ a b, a.length = N → b ∈ l → (f a b).length = N ∧ f a b = g a b) :
    l.foldl f init = l.foldl g init :=
  foldl_congr_inv (fun s => s.length = N) init hinit h

theorem gfD_log_one : gfD.log.getD 1 0 = 0 := by
  have h : expSeq 285 2 8 0 = 1 := rfl
  rw [← h, gfD_log_expSeq 0 (by norm_num)]

/-- The doubled-table product read `exp[log a + log b]` is `χ a · χ b`
for `a, b ∈ [1, 255]`. -/
theorem gfD_chi_exp_add (a b : ℕ) (ha1 : 1 ≤ a) (ha2 : a ≤ 255)
    (hb1 : 1 ≤ b) (hb2 : b ≤ 255) :
    chi (gfD.exp.getD (gfD.log.getD a 0 + gfD.log.getD b 0) 0) = chi a * chi b := by
  obtain ⟨hla, _, hca⟩ := gfD_log_spec a ha1 ha2
  obtain ⟨hlb, _, hcb⟩ := gfD_log_spec b hb1 hb2
  by_cases hs : gfD.log.getD a 0 + gfD.log.getD b 0 < 255
  · rw [gfD_exp_getD_lt _ hs, chi_expSeqD, pow_add, hca, hcb]
  · rw [gfD_exp_getD_ge _ (by omega) (by omega), chi_expSeqD, hca, hcb, ← pow_add]
    conv_rhs => rw [show gfD.log.getD a 0 + gfD.log.getD b 0
      = (gfD.log.getD a 0 + gfD.log.getD b 0 - 255) + 255 by omega]
    rw [pow_add, alpha_pow_255, mul_one]

/-- The `j = 0` pass of `gf_poly_mul gfD p [1, c]`. -/
def binStep0 (p : List ℕ) : List ℕ :=
  (List.range p.length).foldl
    (fun (r2 : List ℕ) i =>
      if p.getD i 0 ≠ 0 then
        r2.set (i + 0) (r2.getD (i + 0) 0 ^^^
          gfD.exp.getD ((p.map (fun c => gfD.log.getD c 0)).getD i 0 + gfD.log.getD 1 0) 0)
      else r2)
    (List.replicate (p.length + 2 - 1) 0)

/-- The `j = 1` pass of `gf_poly_mul gfD p [1, c]` (entered only when
`c ≠ 0`). -/
def binStep1 (p : List ℕ) (c : ℕ) (r : List ℕ) : List ℕ :=
  (List.range p.length).foldl
    (fun (r2 : List ℕ) i =>
      if p.getD i 0 ≠ 0 then
        r2.set (i + 1) (r2.getD (i + 1) 0 ^^^
          gfD.exp.getD ((p.map (fun c => gfD.log.getD c 0)).getD i 0 + gfD.log.getD c 0) 0)
      else r2)
    r

theorem gf_poly_mul_binomial_eq (p : List ℕ) (c : ℕ) :
    gf_poly_mul gfD p [1, c]
      = if c ≠ 0 then binStep1 p c (binStep0 p) else binStep0 p := by
  rw [gf_poly_mul, show ([1, c] : List ℕ).length = 2 from rfl,
    show List.range 2 = [0, 1] from rfl]
  rw [List.foldl_cons, List.foldl_cons, List.foldl_nil]
  rw [show (([1, c] : List ℕ).getD 0 0) = 1 from rfl, show (([1, c] : List ℕ).getD 1 0) = c from rfl]
  rw [if_pos (by norm_num : (1 : ℕ) ≠ 0)]
  rfl

theorem binStep0_eq (p : List ℕ) (hp : ∀ v ∈ p, v < 256) : binStep0 p = p ++ [0] := by
  have hout : binStep0 p = (List.range p.length).foldl
      (fun (s : List ℕ) i => s.set (i + 0) (s.getD (i + 0) 0 ^^^
        (if p.getD i 0 ≠ 0 then
          gfD.exp.getD ((p.map (fun c => gfD.log.getD c 0)).getD i 0 + gfD.log.getD 1 0) 0
        else 0)))
      (List.replicate (p.length + 2 - 1) 0) := by
    rw [binStep0]
    refine foldl_congr_len (p.length + 1) _
      (by rw [List.length_replicate]; omega) ?_
    intro a b ha hb
    have hblt : b < p.length := List.mem_range.mp hb
    by_cases hz : p.getD b 0 ≠ 0
    · rw [if_pos hz, if_pos hz]
      exact ⟨by rw [List.length_set]; exact ha, rfl⟩
    · rw [if_neg hz, if_neg hz]
      exact ⟨ha, (by rw [Nat.xor_zero, set_getD_self _ _ (by rw [ha]; omega)])⟩
  rw [hout]
  obtain ⟨hlen, hP2, hP3⟩ := fold_set_xor (fun i => i + 0)
    (fun i => if p.getD i 0 ≠ 0 then
        gfD.exp.getD ((p.map (fun c => gfD.log.getD c 0)).getD i 0 + gfD.log.getD 1 0) 0
      else 0)
    p.length (List.replicate (p.length + 2 - 1) 0)
    (fun a b _ _ h => by simpa using h)
    (fun a ha => show a + 0 < (List.replicate (p.length + 2 - 1) (0 : ℕ)).length by
      rw [List.length_replicate]; omega)
  refine eq_of_getD _ _ (by rw [hlen, List.length_replicate, List.length_append,
    List.length_cons, List.length_nil]; omega) ?_
  intro k hk
  rw [hlen, List.length_replicate] at hk
  by_cases hkp : k < p.length
  · have h2 := hP2 k hkp
    rw [Nat.add_zero k] at h2
    rw [h2, getD_replicate, Nat.zero_xor, List.getD_append _ _ _ _ hkp]
    by_cases hz : p.getD k 0 ≠ 0
    · rw [if_pos hz, getD_map _ _ _ hkp, gfD_log_one, Nat.add_zero]
      have hv : p.getD k 0 < 256 := hp _ (getD_mem_of_lt hkp)
      exact (gfD_log_spec (p.getD k 0) (by omega) (by omega)).2.1
    · rw [if_neg hz]
      push_neg at hz
      exact hz.symm
  · have hkeq : k = p.length := by omega
    have h3 := hP3 k (fun a ha => show a + 0 ≠ k by omega)
    rw [h3, getD_replicate, List.getD_append_right _ _ _ _ (by omega)]
    subst hkeq
    rw [Nat.sub_self]
    rfl

theorem binStep1_getD (p : List ℕ) (c : ℕ) (r : List ℕ) (hr : r.length = p.length + 1) :
    (binStep1 p c r).length = p.length + 1 ∧
    ∀ k, k ≤ p.length →
      (binStep1 p c r).getD k 0
        = r.getD k 0 ^^^
          (if 1 ≤ k ∧ p.getD (k - 1) 0 ≠ 0 then
            gfD.exp.getD ((p.map (fun x => gfD.log.getD x 0)).getD (k - 1) 0
              + gfD.log.getD c 0) 0
          else 0) := by
  have hout : binStep1 p c r = (List.range p.length).foldl
      (fun (s : List ℕ) i => s.set (i + 1) (s.getD (i + 1) 0 ^^^
        (if p.getD i 0 ≠ 0 then
          gfD.exp.getD ((p.map (fun c => gfD.log.getD c 0)).getD i 0 + gfD.log.getD c 0) 0
        else 0)))
      r := by
    rw [binStep1]
    refine foldl_congr_len (p.length + 1) _ hr ?_
    intro a b ha hb
    have hblt : b < p.length := List.mem_range.mp hb
    by_cases hz : p.getD b 0 ≠ 0
    · rw [if_pos hz, if_pos hz]
      exact ⟨by rw [List.length_set]; exact ha, rfl⟩
    · rw [if_neg hz, if_neg hz]
      exact ⟨ha, (by rw [Nat.xor_zero, set_getD_self _ _ (by rw [ha]; omega)])⟩
  rw [hout]
  obtain ⟨hlen, hP2, hP3⟩ := fold_set_xor (fun i => i + 1)
    (fun i => if p.getD i 0 ≠ 0 then
        gfD.exp.getD ((p.map (fun c => gfD.log.getD c 0)).getD i 0 + gfD.log.getD c 0) 0
      else 0)
    p.length r
    (fun a b _ _ h => by simpa using h)
    (fun a ha => show a + 1 < r.length by rw [hr]; omega)
  refine ⟨by rw [hlen, hr], ?_⟩
  intro k hk
  match k with
  | 0 =>
      rw [hP3 0 (fun a ha => show a + 1 ≠ 0 by omega), if_neg (by omega), Nat.xor_zero]
  | (j + 1) =>
      have hjlt : j < p.length := by omega
      have h2 := hP2 j hjlt
      rw [h2]
      by_cases hz : p.getD j 0 ≠ 0
      · rw [if_pos hz, if_pos (by constructor; omega; simpa using hz)]
        rfl
      · rw [if_neg hz, if_neg (by rintro ⟨-, hzz⟩; exact hz (by simpa using hzz))]

theorem evalR_single (β a : GF256) : evalR β [a] = a := by
  rw [evalR_cons, List.length_nil, pow_zero, mul_one]
  show a + 0 = a
  rw [add_zero]

theorem getD_single_zero : ∀ m, ([0] : List ℕ).getD m 0 = 0
  | 0 => rfl
  | _ + 1 => rfl

theorem eq_of_getD' {α : Type} (d : α) (l1 l2 : List α) (hl : l1.length = l2.length)
    (h : ∀ k, k < l1.length → l1.getD k d = l2.getD k d) : l1 = l2 := by
  apply List.ext_getElem hl
  intro i h1 h2
  rw [← List.getD_eq_getElem l1 d h1, ← List.getD_eq_getElem l2 d h2]
  exact h i h1

theorem getD_map_lt {α β : Type} (f : α → β) (p : List α) (k : ℕ) (hk : k < p.length)
    (d : α) (d' : β) : (p.map f).getD k d' = f (p.getD k d) := by
  rw [List.getD_eq_getElem _ _ (by rw [List.length_map]; exact hk), List.getElem_map,
    List.getD_eq_getElem _ _ hk]

theorem getD_zipWith {α : Type} (f : α → α → α) (a b : List α) (k : ℕ) (d : α)
    (hk1 : k < a.length) (hk2 : k < b.length) :
    (List.zipWith f a b).getD k d = f (a.getD k d) (b.getD k d) := by
  rw [List.getD_eq_getElem _ _ (by rw [List.length_zipWith]; exact lt_min hk1 hk2),
    List.getElem_zipWith, List.getD_eq_getElem _ _ hk1, List.getD_eq_getElem _ _ hk2]

/-- The product of `p` with the binomial `[1, c]`: one longer, bounded,
leading coefficient preserved, and `χ`-evaluation multiplied by
`(β + χ c)`. -/
theorem gf_poly_mul_binomial (p : List ℕ) (hpne : p ≠ []) (hp : ∀ v ∈ p, v < 256)
    (c : ℕ) (hc : c < 256) :
    (gf_poly_mul gfD p [1, c]).length = p.length + 1 ∧
    (∀ v ∈ gf_poly_mul gfD p [1, c], v < 256) ∧
    (gf_poly_mul gfD p [1, c]).getD 0 0 = p.getD 0 0 ∧
    ∀ β : GF256, evalR β ((gf_poly_mul gfD p [1, c]).map chi)
      = evalR β (p.map chi) * (β + chi c) := by
  have hplen : 0 < p.length := List.length_pos.mpr hpne
  rw [gf_poly_mul_binomial_eq]
  by_cases hc0 : c ≠ 0
  case neg =>
    push_neg at hc0
    subst hc0
    rw [if_neg (by simp), binStep0_eq p hp]
    refine ⟨by rw [List.length_append, List.length_cons, List.length_nil], ?_, ?_, ?_⟩
    · intro v hv
      rcases List.mem_append.mp hv with h | h
      · exact hp v h
      · rw [List.mem_singleton.mp h]; norm_num
    · rw [List.getD_append _ _ _ _ hplen]
    · intro β
      rw [List.map_append, show ([0] : List ℕ).map chi = [chi 0] from rfl, chi_zero,
        evalR_append, evalR_single, List.length_cons, List.length_nil, pow_one,
        add_zero, add_zero]
  case pos =>
    rw [if_pos hc0, binStep0_eq p hp]
    have hr0len : (p ++ [0]).length = p.length + 1 := by
      rw [List.length_append, List.length_cons, List.length_nil]
    obtain ⟨hlen, hgetD⟩ := binStep1_getD p c (p ++ [0]) hr0len
    have hr0b : ∀ k, (p ++ [0]).getD k 0 < 256 := by
      intro k
      by_cases hkp : k < p.length
      · rw [List.getD_append _ _ _ _ hkp]
        exact hp _ (getD_mem_of_lt hkp)
      · rw [List.getD_append_right _ _ _ _ (by omega), getD_single_zero]
        norm_num
    have h8 : (256 : ℕ) = 2 ^ 8 := by norm_num
    refine ⟨hlen, ?_, ?_, ?_⟩
    · intro v hv
      obtain ⟨k, hk, hv⟩ := List.mem_iff_getElem.mp hv
      rw [← List.getD_eq_getElem _ 0 hk] at hv
      rw [← hv, hgetD k (by rw [hlen] at hk; omega), h8]
      refine Nat.xor_lt_two_pow (h8 ▸ hr0b k) ?_
      split_ifs
      · exact h8 ▸ gfD_exp_getD_bound _
      · norm_num
    · rw [hgetD 0 (by omega), if_neg (by omega), Nat.xor_zero,
        List.getD_append _ _ _ _ hplen]
    · have hmap : (binStep1 p c (p ++ [0])).map chi
          = List.zipWith (· + ·) ((p.map chi) ++ [0])
              (0 :: p.map (fun v => chi c * chi v)) := by
        apply eq_of_getD' (0 : GF256)
        · simp only [List.length_map, hlen, List.length_zipWith, List.length_append,
            List.length_cons, List.length_nil]
          omega
        · intro i hi
          have hiq : i < (binStep1 p c (p ++ [0])).length := by
            rw [← List.length_map _ chi]; exact hi
          have hile : i ≤ p.length := by rw [hlen] at hiq; omega
          rw [getD_map_lt chi _ _ hiq 0, hgetD i hile, chi_xor,
            getD_zipWith (· + ·) _ _ i 0
              (by simp only [List.length_append, List.length_map, List.length_cons,
                List.length_nil]; omega)
              (by simp only [List.length_cons, List.length_map]; omega)]
          congr 1
          · by_cases hip : i < p.length
            · rw [List.getD_append _ _ _ _ hip,
                List.getD_append _ _ _ _ (by rw [List.length_map]; exact hip),
                getD_map_lt chi _ _ hip 0]
            · have hieq : i = p.length := by omega
              subst hieq
              rw [List.getD_append_right _ _ _ _ (by omega),
                List.getD_append_right _ _ _ _ (by rw [List.length_map]),
                Nat.sub_self, getD_single_zero, chi_zero, List.length_map, Nat.sub_self]
              rfl
          · match i, hile with
            | 0, _ =>
                rw [if_neg (by omega), chi_zero]
                rfl
            | j + 1, hile =>
                have hjp : j < p.length := by omega
                rw [List.getD_cons_succ, getD_map_lt _ _ _ hjp 0, Nat.add_sub_cancel]
                by_cases hz : p.getD j 0 ≠ 0
                · rw [if_pos ⟨by omega, hz⟩, getD_map _ _ _ hjp]
                  have hv : p.getD j 0 < 256 := hp _ (getD_mem_of_lt hjp)
                  rw [gfD_chi_exp_add (p.getD j 0) c (by omega) (by omega)
                    (by omega) (by omega), mul_comm]
                · rw [if_neg (by rintro ⟨-, hzz⟩; exact hz hzz), chi_zero]
                  push_neg at hz
                  rw [hz, chi_zero, mul_zero]
      intro β
      rw [hmap, evalR_zipWith_add β _ _ (by simp), evalR_append, evalR_single,
        List.length_cons, List.length_nil, pow_one, evalR_cons,
        show p.map (fun v => chi c * chi v) = (p.map chi).map (fun r => chi c * r) from
          by rw [List.map_map]; rfl,
        evalR_map_mul]
      ring

theorem coeM_nat_int (l : List ℕ) :
    ((do let a ← l
         pure ((a : ℤ))) : List ℤ) = List.map (fun a : ℕ => (a : ℤ)) l := by
  induction l with
  | nil => rfl
  | cons x t ih =>
      show (x :: t).flatMap (fun a => [(a : ℤ)]) = _
      rw [List.flatMap_cons,
        show (t.flatMap (fun a => [(a : ℤ)]))
            = ((do let a ← t
                   pure ((a : ℤ))) : List ℤ) from rfl, ih]
      rfl

/-- The default-field generator polynomial `rs_generator_poly nsym`:
length `nsym + 1`, monic, entries below 256, and `χ`-evaluation equal
to the product of the binomials `(β + α^k)`, `k < nsym`. -/
theorem rs_generator_poly_facts (nsym : ℕ) :
    (rs_generator_poly gfD nsym 0 2).length = nsym + 1 ∧
    (rs_generator_poly gfD nsym 0 2).getD 0 0 = 1 ∧
    (∀ v ∈ rs_generator_poly gfD nsym 0 2, v < 256) ∧
    ∀ β : GF256, evalR β ((rs_generator_poly gfD nsym 0 2).map chi)
      = (Finset.range nsym).prod (fun k => β + chi 2 ^ k) := by
  induction nsym with
  | zero =>
      refine ⟨rfl, rfl, ?_, ?_⟩
      · intro v hv
        rw [List.mem_singleton.mp hv]; norm_num
      · intro β
        rw [show rs_generator_poly gfD 0 0 2 = [1] from rfl,
          show ([1] : List ℕ).map chi = [chi 1] from rfl, chi_one, evalR_single,
          Finset.range_zero, Finset.prod_empty]
  | succ n ih =>
      obtain ⟨ihlen, ihmonic, ihb, iheval⟩ := ih
      have hsucc : rs_generator_poly gfD (n + 1) 0 2
          = gf_poly_mul gfD (rs_generator_poly gfD n 0 2)
              [1, gf_pow gfD 2 ((n : ℤ) + ((0 : ℕ) : ℤ))] := by
        rw [rs_generator_poly, rs_generator_poly, coeM_nat_int, coeM_nat_int,
          List.range_succ, List.map_append, List.foldl_append, List.map_cons,
          List.map_nil, List.foldl_cons, List.foldl_nil]
      have hcast : ((n : ℤ) + ((0 : ℕ) : ℤ)) = (n : ℤ) := by push_cast; ring
      rw [hcast] at hsucc
      obtain ⟨hcchi, hcb⟩ := gfD_chi_pow_two n
      have hpne : rs_generator_poly gfD n 0 2 ≠ [] := by
        intro h
        rw [h] at ihlen
        exact absurd ihlen (by simp)
      obtain ⟨hl, hb, hm, he⟩ :=
        gf_poly_mul_binomial (rs_generator_poly gfD n 0 2) hpne ihb
          (gf_pow gfD 2 (n : ℤ)) hcb
      rw [hsucc]
      refine ⟨by rw [hl, ihlen], by rw [hm, ihmonic], hb, ?_⟩
      intro β
      rw [he β, iheval β, Finset.prod_range_succ, hcchi]

/-- Every `α^i`, `i < nsym`, is a root of the generator polynomial. -/
theorem rs_generator_poly_root (nsym i : ℕ) (hi : i < nsym) :
    evalR (chi 2 ^ i) ((rs_generator_poly gfD nsym 0 2).map chi) = 0 := by
  rw [(rs_generator_poly_facts nsym).2.2.2]
  exact Finset.prod_eq_zero (Finset.mem_range.mpr hi) (GF256_add_self _)

theorem getD_replicate_gen {α : Type} (a : α) (n j : ℕ) :
    (List.replicate n a).getD j a = a := by
  rw [List.getD_eq_getElem?_getD, List.getElem?_replicate]
  split_ifs <;> rfl

theorem getD_take' {α : Type} (l : List α) (n j : ℕ) (d : α) (h : j < n) :
    (l.take n).getD j d = l.getD j d := by
  rw [List.getD_eq_getElem?_getD, List.getD_eq_getElem?_getD, List.getElem?_take, if_pos h]

theorem getD_drop' {α : Type} (l : List α) (m j : ℕ) (d : α) (h : m + j < l.length) :
    (l.drop m).getD j d = l.getD (m + j) d := by
  rw [List.getD_eq_getElem _ _ (by rw [List.length_drop]; omega), List.getElem_drop,
    List.getD_eq_getElem _ _ h]

theorem take_succ_getD (l : List ℕ) (k : ℕ) (hk : k < l.length) :
    l.take (k + 1) = l.take k ++ [l.getD k 0] := by
  rw [List.take_succ, List.getElem?_eq_getElem hk, List.getD_eq_getElem l 0 hk]
  rfl

/-- Closed form of the inner loop of `rs_encode_msg` at outer index `i`. -/
theorem rs_encode_inner_spec (lgen : List ℕ) (genLen i lcoef : ℕ) (m : List ℕ)
    (hbound : i + genLen ≤ m.length) :
    (∀ jm, jm < genLen - 1 →
      (rs_encode_inner gfD lgen genLen i lcoef m).getD (i + (jm + 1)) 0
        = m.getD (i + (jm + 1)) 0 ^^^ gfD.exp.getD (lcoef + lgen.getD (jm + 1) 0) 0) ∧
    (∀ k, (∀ a, a < genLen - 1 → i + (a + 1) ≠ k) →
      (rs_encode_inner gfD lgen genLen i lcoef m).getD k 0 = m.getD k 0) := by
  have hunf : rs_encode_inner gfD lgen genLen i lcoef m
      = (List.range (genLen - 1)).foldl
          (fun m2 jm => m2.set (i + (jm + 1)) (m2.getD (i + (jm + 1)) 0 ^^^
            gfD.exp.getD (lcoef + lgen.getD (jm + 1) 0) 0)) m := rfl
  obtain ⟨hlen, hP2, hP3⟩ := fold_set_xor (fun jm => i + (jm + 1))
    (fun jm => gfD.exp.getD (lcoef + lgen.getD (jm + 1) 0) 0)
    (genLen - 1) m
    (fun a b _ _ h => by
      have h2 : i + (a + 1) = i + (b + 1) := h
      omega)
    (fun a ha => show i + (a + 1) < m.length by omega)
  exact ⟨fun jm hjm => by rw [hunf]; exact hP2 jm hjm,
    fun k hk => by rw [hunf]; exact hP3 k hk⟩

/-- If `g` is monic of degree `nsym` and `β` is a root, the `χ`-value
of the tail of `g` at `β` is `β ^ nsym`. -/
theorem gen_tail_eval (gen : List ℕ) (nsym : ℕ) (hglen : gen.length = nsym + 1)
    (hmonic : gen.getD 0 0 = 1) (β : GF256) (hβ : evalR β (gen.map chi) = 0) :
    evalR β ((gen.drop 1).map chi) = β ^ nsym := by
  cases gen with
  | nil => simp at hglen
  | cons g0 tail =>
      rw [List.map_cons, evalR_cons, List.length_map] at hβ
      have hg0 : g0 = 1 := hmonic
      have htl : tail.length = nsym := by
        rw [List.length_cons] at hglen
        omega
      rw [hg0, chi_one, one_mul, htl] at hβ
      have := eq_neg_of_add_eq_zero_right hβ
      rw [show (g0 :: tail).drop 1 = tail from rfl, this, GF256_neg]

/-- The inner-loop write values, as the mapped tail of the generator. -/
theorem range_map_tail (gen : List ℕ) (nsym : ℕ) (hglen : gen.length = nsym + 1) :
    (List.range nsym).map (fun jm => chi (gen.getD (jm + 1) 0)) = (gen.drop 1).map chi := by
  apply eq_of_getD' (0 : GF256)
  · rw [List.length_map, List.length_range, List.length_map, List.length_drop, hglen]
    omega
  · intro j hj
    rw [List.length_map, List.length_range] at hj
    have hr : (List.range nsym).getD j 0 = j := by
      rw [List.getD_eq_getElem _ _ (by rw [List.length_range]; exact hj),
        List.getElem_range]
    rw [getD_map_lt _ _ _ (by rw [List.length_range]; exact hj) 0, hr,
      getD_map_lt chi _ _ (by rw [List.length_drop, hglen]; omega) 0,
      getD_drop' _ _ _ _ (by rw [hglen]; omega), Nat.add_comm 1 j]

/-- The precomputed log table of the generator, as in `rs_encode_msg`. -/
def lgenOf (gen : List ℕ) : List ℕ := gen.map (fun c => gfD.log.getD c 0)

/-- The initial buffer `msg_in + [0] * (len(gen) - 1)` of `rs_encode_msg`. -/
def encInit (msg gen : List ℕ) : List ℕ := msg ++ List.replicate (gen.length - 1) 0

/-- The state of the main loop of `rs_encode_msg` after `k` iterations. -/
def encFold (msg gen : List ℕ) (k : ℕ) : List ℕ :=
  (List.range k).foldl (rs_encode_step gfD (lgenOf gen) gen.length) (encInit msg gen)

theorem encFold_succ (msg gen : List ℕ) (k : ℕ) :
    encFold msg gen (k + 1)
      = rs_encode_step gfD (lgenOf gen) gen.length (encFold msg gen k) k := by
  rw [encFold, encFold, List.range_succ, List.foldl_append, List.foldl_cons,
    List.foldl_nil]

theorem encFold_length (msg gen : List ℕ) (k : ℕ) :
    (encFold msg gen k).length = msg.length + (gen.length - 1) := by
  rw [encFold, rs_encode_fold_length, encInit, List.length_append, List.length_replicate]

theorem rs_encode_msg_eq_encFold (msg gen : List ℕ) :
    rs_encode_msg gfD msg gen = msg ++ (encFold msg gen msg.length).drop msg.length := rfl

/-- One step of the `rs_encode_msg` loop: length and bounds preserved,
the first `k + 1` symbols untouched, and the `χ`-evaluation changed by
`χ(coef) · β^(N - 1 - k)`. -/
theorem encode_step_spec (msg gen : List ℕ) (nsym : ℕ)
    (hglen : gen.length = nsym + 1) (hns : 1 ≤ nsym)
    (hgb : ∀ v ∈ gen, 0 < v ∧ v < 256)
    (β : GF256)
    (k : ℕ) (hk : k < msg.length)
    (st : List ℕ) (hstlen : st.length = msg.length + nsym)
    (hstb : ∀ v ∈ st, v < 256) :
    (rs_encode_step gfD (lgenOf gen) gen.length st k).length = msg.length + nsym ∧
    (∀ v ∈ rs_encode_step gfD (lgenOf gen) gen.length st k, v < 256) ∧
    (rs_encode_step gfD (lgenOf gen) gen.length st k).take (k + 1) = st.take (k + 1) ∧
    evalR β ((rs_encode_step gfD (lgenOf gen) gen.length st k).map chi)
      = evalR β (st.map chi)
        + (chi (st.getD k 0) * evalR β ((gen.drop 1).map chi))
            * β ^ (msg.length + nsym - (k + 1) - nsym) := by
  have hstep : rs_encode_step gfD (lgenOf gen) gen.length st k
      = if st.getD k 0 ≠ 0 then
          rs_encode_inner gfD (lgenOf gen) gen.length k (gfD.log.getD (st.getD k 0) 0) st
        else st := rfl
  by_cases hz : st.getD k 0 ≠ 0
  case neg =>
    push_neg at hz
    rw [hstep, if_neg (by rw [hz]; simp)]
    refine ⟨hstlen, hstb, rfl, ?_⟩
    rw [hz, chi_zero, zero_mul, zero_mul, add_zero]
  case pos =>
    rw [hstep, if_pos hz]
    have hcoefb : st.getD k 0 < 256 := hstb _ (getD_mem_of_lt (by omega))
    have hbin : k + gen.length ≤ st.length := by rw [hglen]; omega
    obtain ⟨hP2, hP3⟩ := rs_encode_inner_spec (lgenOf gen) gen.length k
      (gfD.log.getD (st.getD k 0) 0) st hbin
    have hilen : (rs_encode_inner gfD (lgenOf gen) gen.length k
        (gfD.log.getD (st.getD k 0) 0) st).length = msg.length + nsym := by
      rw [rs_encode_inner_length]; exact hstlen
    have hgetDb : ∀ m, (rs_encode_inner gfD (lgenOf gen) gen.length k
        (gfD.log.getD (st.getD k 0) 0) st).getD m 0 < 256 := by
      intro m
      by_cases hm : k + 1 ≤ m ∧ m ≤ k + (gen.length - 1)
      · obtain ⟨jm, hjm, hmeq⟩ : ∃ jm, jm < gen.length - 1 ∧ m = k + (jm + 1) :=
          ⟨m - (k + 1), by omega, by omega⟩
        subst hmeq
        rw [hP2 jm hjm, show (256 : ℕ) = 2 ^ 8 by norm_num]
        exact Nat.xor_lt_two_pow
          (by rw [show (2 : ℕ) ^ 8 = 256 by norm_num]
              exact hstb _ (getD_mem_of_lt (by omega)))
          (by rw [show (2 : ℕ) ^ 8 = 256 by norm_num]; exact gfD_exp_getD_bound _)
      · rw [hP3 m (fun a ha => by omega)]
        by_cases hmlen : m < st.length
        · exact hstb _ (getD_mem_of_lt hmlen)
        · rw [List.getD_eq_default _ _ (by omega)]; norm_num
    refine ⟨hilen, ?_, ?_, ?_⟩
    · intro v hv
      obtain ⟨m, hm, hveq⟩ := List.mem_iff_getElem.mp hv
      rw [← List.getD_eq_getElem _ 0 hm] at hveq
      rw [← hveq]
      exact hgetDb m
    · refine eq_of_getD _ _ (by rw [List.length_take, List.length_take, hilen, hstlen]) ?_
      intro m hm
      rw [List.length_take, hilen] at hm
      rw [getD_take' _ _ _ _ (by omega), getD_take' _ _ _ _ (by omega),
        hP3 m (fun a ha => by omega)]
    · have hmap : (rs_encode_inner gfD (lgenOf gen) gen.length k
            (gfD.log.getD (st.getD k 0) 0) st).map chi
          = List.zipWith (· + ·) (st.map chi)
              (List.replicate (k + 1) (0 : GF256)
                ++ (List.range (gen.length - 1)).map
                    (fun jm => chi (gfD.exp.getD
                      (gfD.log.getD (st.getD k 0) 0 + (lgenOf gen).getD (jm + 1) 0) 0))
                ++ List.replicate (st.length - (k + 1) - (gen.length - 1)) 0) := by
        have hdlen : (List.replicate (k + 1) (0 : GF256)
              ++ (List.range (gen.length - 1)).map
                  (fun jm => chi (gfD.exp.getD
                    (gfD.log.getD (st.getD k 0) 0 + (lgenOf gen).getD (jm + 1) 0) 0))
              ++ List.replicate (st.length - (k + 1) - (gen.length - 1)) 0).length
            = msg.length + nsym := by
          rw [List.length_append, List.length_append, List.length_replicate,
            List.length_map, List.length_range, List.length_replicate, hglen, hstlen]
          omega
        apply eq_of_getD' (0 : GF256)
        · rw [List.length_map, hilen, List.length_zipWith, List.length_map, hdlen,
            hstlen]
          omega
        · intro m hm
          rw [List.length_map, hilen] at hm
          rw [getD_map_lt chi _ _ (by omega) 0,
            getD_zipWith _ _ _ _ _ (by rw [List.length_map, hstlen]; omega)
              (by rw [hdlen]; omega),
            getD_map_lt chi _ _ (by omega) 0]
          by_cases hm1 : m < k + 1
          · rw [hP3 m (fun a ha => by omega),
              List.getD_append _ _ _ _ (by
                rw [List.length_append, List.length_replicate]; omega),
              List.getD_append _ _ _ _ (by rw [List.length_replicate]; omega),
              getD_replicate_gen, add_zero]
          · by_cases hm2 : m ≤ k + (gen.length - 1)
            · obtain ⟨jm, hjm, hmeq⟩ : ∃ jm, jm < gen.length - 1 ∧ m = k + (jm + 1) :=
                ⟨m - (k + 1), by omega, by omega⟩
              subst hmeq
              rw [hP2 jm hjm, chi_xor,
                List.getD_append _ _ _ _ (by
                  rw [List.length_append, List.length_replicate, List.length_map,
                    List.length_range]; omega),
                List.getD_append_right _ _ _ _ (by rw [List.length_replicate]; omega),
                List.length_replicate,
                show k + (jm + 1) - (k + 1) = jm by omega,
                getD_map_lt _ _ _ (by rw [List.length_range]; omega) 0,
                show (List.range (gen.length - 1)).getD jm 0 = jm from by
                  rw [List.getD_eq_getElem _ _ (by rw [List.length_range]; omega),
                    List.getElem_range]]
            · rw [hP3 m (fun a ha => by omega),
                List.getD_append_right _ _ _ _ (by
                  rw [List.length_append, List.length_replicate, List.length_map,
                    List.length_range]; omega),
                getD_replicate_gen, add_zero]
      rw [hmap, evalR_zipWith_add β _ _ (by
          rw [List.length_map, hstlen, List.length_append, List.length_append,
            List.length_replicate, List.length_map, List.length_range,
            List.length_replicate, hglen]
          omega)]
      congr 1
      rw [evalR_append, evalR_append, evalR_replicate_zero, evalR_replicate_zero,
        zero_mul, zero_add, add_zero, List.length_replicate]
      congr 1
      have hmid : (List.range (gen.length - 1)).map
            (fun jm => chi (gfD.exp.getD
              (gfD.log.getD (st.getD k 0) 0 + (lgenOf gen).getD (jm + 1) 0) 0))
          = ((List.range (gen.length - 1)).map
              (fun jm => chi (gen.getD (jm + 1) 0))).map
                (fun r => chi (st.getD k 0) * r) := by
        rw [List.map_map]
        refine List.map_congr_left (fun jm hjm => ?_)
        have hjlt : jm + 1 < gen.length := by
          have := List.mem_range.mp hjm; omega
        have hgj := hgb _ (getD_mem_of_lt hjlt)
        rw [show (lgenOf gen).getD (jm + 1) 0
            = gfD.log.getD (gen.getD (jm + 1) 0) 0 from
            getD_map _ _ _ hjlt]
        show chi (gfD.exp.getD _ 0) = chi (st.getD k 0) * chi (gen.getD (jm + 1) 0)
        rw [gfD_chi_exp_add (st.getD k 0) (gen.getD (jm + 1) 0)
          (by omega) (by omega) (by omega) (by omega)]
      congr 1
      · rw [hmid, evalR_map_mul, range_map_tail gen (gen.length - 1) (by omega)]
      · congr 1
        omega

/-- Loop invariant of `rs_encode_msg`: after `k` steps the state is
bounded and its `χ`-evaluation differs from the initial buffer only by
the evaluation of its own first `k` symbols (zero-padded). -/
theorem encode_fold_invariant (msg gen : List ℕ) (nsym : ℕ)
    (hglen : gen.length = nsym + 1) (hns : 1 ≤ nsym)
    (hmonic : gen.getD 0 0 = 1)
    (hgb : ∀ v ∈ gen, 0 < v ∧ v < 256)
    (hmb : ∀ v ∈ msg, v < 256)
    (β : GF256) (hβ : evalR β (gen.map chi) = 0) :
    ∀ k, k ≤ msg.length →
      (∀ v ∈ encFold msg gen k, v < 256) ∧
      evalR β ((encFold msg gen k).map chi)
        = evalR β ((encInit msg gen).map chi)
          + evalR β (((encFold msg gen k).take k
              ++ List.replicate (msg.length + nsym - k) 0).map chi) := by
  intro k
  induction k with
  | zero =>
      intro _
      constructor
      · intro v hv
        rw [show encFold msg gen 0 = encInit msg gen from rfl] at hv
        rcases List.mem_append.mp hv with h | h
        · exact hmb v h
        · rw [List.eq_of_mem_replicate h]; norm_num
      · rw [List.take_zero, List.nil_append, Nat.sub_zero, List.map_replicate,
          chi_zero, evalR_replicate_zero, add_zero]
        rfl
  | succ k ih =>
      intro hk1
      have hk : k < msg.length := by omega
      obtain ⟨ihb, iheval⟩ := ih (by omega)
      have hstlen : (encFold msg gen k).length = msg.length + nsym := by
        rw [encFold_length, hglen]
        omega
      obtain ⟨hlen', hb', htake', heval'⟩ := encode_step_spec msg gen nsym hglen hns
        hgb β k hk (encFold msg gen k) hstlen ihb
      rw [encFold_succ]
      refine ⟨hb', ?_⟩
      rw [heval', iheval, htake',
        take_succ_getD _ _ (by rw [hstlen]; omega),
        gen_tail_eval gen nsym hglen hmonic β hβ]
      simp only [List.map_append, evalR_append, List.map_replicate, chi_zero,
        evalR_replicate_zero, List.length_replicate, List.map_cons, List.map_nil,
        evalR_single, add_zero, List.length_cons, List.length_nil, zero_add, pow_one]
      rw [show msg.length + nsym - (k + 1) - nsym = msg.length - (k + 1) from by omega,
        show msg.length + nsym - k = msg.length - (k + 1) + nsym + 1 from by omega,
        show msg.length + nsym - (k + 1) = msg.length - (k + 1) + nsym from by omega]
      ring

/-- `rs_encode_msg` over the default tables: the codeword has length
`|msg| + nsym`, stays below 256, and its `χ`-evaluation vanishes at
every root of the generator polynomial. -/
theorem encode_msg_spec (msg gen : List ℕ) (nsym : ℕ)
    (hglen : gen.length = nsym + 1) (hns : 1 ≤ nsym) (hmonic : gen.getD 0 0 = 1)
    (hgb : ∀ v ∈ gen, 0 < v ∧ v < 256) (hmb : ∀ v ∈ msg, v < 256)
    (β : GF256) (hβ : evalR β (gen.map chi) = 0) :
    (rs_encode_msg gfD msg gen).length = msg.length + nsym ∧
    (∀ v ∈ rs_encode_msg gfD msg gen, v < 256) ∧
    evalR β ((rs_encode_msg gfD msg gen).map chi) = 0 := by
  obtain ⟨hFb, hFeval⟩ :=
    encode_fold_invariant msg gen nsym hglen hns hmonic hgb hmb β hβ msg.length le_rfl
  have hFlen : (encFold msg gen msg.length).length = msg.length + nsym := by
    rw [encFold_length, hglen]
    omega
  have hdroplen : ((encFold msg gen msg.length).drop msg.length).length = nsym := by
    rw [List.length_drop, hFlen]
    omega
  have htakelen : ((encFold msg gen msg.length).take msg.length).length = msg.length := by
    rw [List.length_take, hFlen]
    omega
  refine ⟨?_, ?_, ?_⟩
  · rw [rs_encode_msg_eq_encFold, List.length_append, hdroplen]
  · intro v hv
    rw [rs_encode_msg_eq_encFold] at hv
    rcases List.mem_append.mp hv with h | h
    · exact hmb v h
    · exact hFb v (List.mem_of_mem_drop h)
  · have hsplit : encFold msg gen msg.length
        = (encFold msg gen msg.length).take msg.length
          ++ (encFold msg gen msg.length).drop msg.length :=
      (List.take_append_drop _ _).symm
    rw [show encInit msg gen = msg ++ List.replicate nsym 0 from by
        rw [encInit, hglen, Nat.add_sub_cancel]] at hFeval
    conv_lhs at hFeval => rw [hsplit]
    simp only [List.map_append, evalR_append, List.map_replicate, chi_zero,
      evalR_replicate_zero, add_zero, List.length_replicate, List.length_map,
      hdroplen] at hFeval
    rw [show msg.length + nsym - msg.length = nsym from by omega] at hFeval
    have hR : evalR β (((encFold msg gen msg.length).drop msg.length).map chi)
        = evalR β (msg.map chi) * β ^ nsym := by
      have := hFeval
      rw [add_comm (evalR β (msg.map chi) * β ^ nsym)] at this
      exact add_left_cancel this
    rw [rs_encode_msg_eq_encFold, List.map_append, evalR_append, List.length_map,
      hdroplen, hR]
    exact GF256_add_self _

theorem foldl_max_replicate_zero : ∀ n : ℕ, (List.replicate n (0 : ℕ)).foldl max 0 = 0 := by
  intro n
  induction n with
  | zero => rfl
  | succ n ih =>
      rw [List.replicate_succ, List.foldl_cons, Nat.max_self]
      exact ih

/-- All syndromes of a bounded buffer whose `χ`-evaluation vanishes at
`α^i`, `i < nsym`, are zero. -/
theorem calc_syndromes_zero (cw : List ℕ) (nsym : ℕ)
    (hb : ∀ v ∈ cw, v < 256)
    (hroots : ∀ i, i < nsym → evalR (chi 2 ^ i) (cw.map chi) = 0) :
    rs_calc_syndromes gfD cw nsym 0 2 = List.replicate (nsym + 1) 0 := by
  have heq : rs_calc_syndromes gfD cw nsym 0 2
      = 0 :: (List.range nsym).map
          (fun a : ℕ => gf_poly_eval gfD cw (gf_pow gfD 2 ((a : ℤ) + ((0 : ℕ) : ℤ)))) := by
    rw [rs_calc_syndromes, coeM_nat_int, List.map_map]
    rfl
  rw [heq, show List.replicate (nsym + 1) (0 : ℕ) = 0 :: List.replicate nsym 0 from
    List.replicate_succ 0 nsym]
  congr 1
  have hzero : ∀ a : ℕ, a < nsym →
      gf_poly_eval gfD cw (gf_pow gfD 2 ((a : ℤ) + ((0 : ℕ) : ℤ))) = 0 := by
    intro a ha
    have hcast : ((a : ℤ) + ((0 : ℕ) : ℤ)) = (a : ℤ) := by push_cast; ring
    rw [hcast]
    obtain ⟨hchi, hlt⟩ := gfD_chi_pow_two a
    obtain ⟨heval, hevlt⟩ := gf_poly_eval_chi cw hb _ hlt
    refine chi_eq_zero hevlt ?_
    rw [heval, hchi]
    exact hroots a ha
  have hlen : ((List.range nsym).map
      (fun a : ℕ => gf_poly_eval gfD cw (gf_pow gfD 2 ((a : ℤ) + ((0 : ℕ) : ℤ))))).length
      = nsym := by
    rw [List.length_map, List.length_range]
  conv_rhs => rw [← hlen]
  refine List.eq_replicate_of_mem ?_
  intro b hbm
  obtain ⟨a, ham, hab⟩ := List.mem_map.mp hbm
  rw [← hab]
  exact hzero a (List.mem_range.mp ham)

/-- `rs_correct_msg` on a buffer with all-zero syndromes and no
erasures takes the clean early return. -/
theorem correct_msg_clean (cw : List ℕ) (nsym : ℕ)
    (hlen : cw.length ≤ 255)
    (hsynd : (rs_calc_syndromes gfD cw nsym 0 2).foldl max 0 = 0) :
    rs_correct_msg gfD cw nsym 0 2 [] false
      = .ok ((msgSplit cw nsym).1, (msgSplit cw nsym).2, []) := by
  simp only [rs_correct_msg, List.foldl_nil, List.length_nil]
  rw [if_neg (by rw [gfD_charac]; omega), if_neg (by omega), if_pos hsynd]

/-- Computational check (on the literal tables): every generator
polynomial for `nsym ∈ [2, 32]` has only nonzero coefficients. -/
def genPosCheck : Bool :=
  (List.range 31).all
    (fun k => (rs_generator_poly gfDlit (k + 2) 0 2).all (fun v => decide (0 < v)))

theorem genPosCheck_true : genPosCheck = true := by rfl

theorem gen_pos (nsym : ℕ) (h2 : 2 ≤ nsym) (h32 : nsym ≤ 32) :
    ∀ v ∈ rs_generator_poly gfD nsym 0 2, 0 < v := by
  intro v hv
  rw [gfD_eq_lit] at hv
  have hall := genPosCheck_true
  rw [genPosCheck, List.all_eq_true] at hall
  have hk := hall (nsym - 2) (List.mem_range.mpr (by omega))
  rw [List.all_eq_true] at hk
  rw [show nsym - 2 + 2 = nsym from by omega] at hk
  exact of_decide_eq_true (hk v hv)

/-- A single-chunk `RSCodec.encode` call is one `rs_encode_msg`. -/
theorem RSCodec_encode_single (m : List ℕ) (nsym : ℕ) (hns : nsym ≤ 254)
    (h1 : 1 ≤ m.length) (h2 : m.length ≤ 255 - nsym) :
    RSCodec_encode gfD nsym 255 0 2 m
      = rs_encode_msg gfD m (rs_generator_poly gfD nsym 0 2) := by
  have hdiv : (m.length + (255 - nsym) - 1) / (255 - nsym) = 1 :=
    Nat.div_eq_of_lt_le (by omega) (by omega)
  simp only [RSCodec_encode, hdiv, encode_chunks, List.append_nil]
  rw [List.take_of_length_le h2]

/-- A single-chunk `RSCodec.decode` call on a cleanly decodable chunk. -/
theorem RSCodec_decode_single (data : List ℕ) (nsym : ℕ)
    (h1 : 1 ≤ data.length) (h2 : data.length ≤ 255)
    (a b : List ℕ)
    (hc : rs_correct_msg gfD data nsym 0 2 [] false = .ok (a, b, [])) :
    RSCodec_decode gfD nsym 255 0 2 data [] false = .ok (a, a ++ b, []) := by
  have hdiv : (data.length + 255 - 1) / 255 = 1 :=
    Nat.div_eq_of_lt_le (by omega) (by omega)
  rw [RSCodec_decode, hdiv]
  simp only [decode_chunks, List.filter_nil, List.map_nil,
    List.take_of_length_le h2, hc, Bind.bind, Except.bind, List.append_nil]

/-- Claim C2: clean round-trip.  For every `nsym ∈ [2, 32]` and every
message `m` of valid symbols with `|m| + nsym ≤ n_max = 255`, decoding
the uncorrupted codeword returns exactly the message, the full
codeword, and an empty errata list. -/
theorem clean_roundtrip (nsym : ℕ) (m : List ℕ) (h2 : 2 ≤ nsym) (h32 : nsym ≤ 32)
    (hlen : m.length + nsym ≤ 255) (hm : ∀ v ∈ m, v < 256) :
    RSCodec_decode gfD nsym 255 0 2 (RSCodec_encode gfD nsym 255 0 2 m) [] false
      = .ok (m, RSCodec_encode gfD nsym 255 0 2 m, []) := by
  by_cases hm0 : m = []
  · subst hm0
    have henc : RSCodec_encode gfD nsym 255 0 2 [] = [] := by
      have hdiv : (([] : List ℕ).length + (255 - nsym) - 1) / (255 - nsym) = 0 :=
        Nat.div_eq_of_lt (by simp; omega)
      simp only [RSCodec_encode, hdiv, encode_chunks]
    rw [henc, RSCodec_decode]
    norm_num
    rfl
  · have h1m : 1 ≤ m.length := by
      rcases Nat.eq_zero_or_pos m.length with h | h
      · exact absurd (List.length_eq_zero.mp h) hm0
      · exact h
    obtain ⟨hglen, hmonic, hgbound, _⟩ := rs_generator_poly_facts nsym
    have hgb : ∀ v ∈ rs_generator_poly gfD nsym 0 2, 0 < v ∧ v < 256 :=
      fun v hv => ⟨gen_pos nsym h2 h32 v hv, hgbound v hv⟩
    have henc := RSCodec_encode_single m nsym (by omega) h1m (by omega)
    have hspec0 := encode_msg_spec m (rs_generator_poly gfD nsym 0 2) nsym hglen
      (by omega) hmonic hgb hm (chi 2 ^ 0) (rs_generator_poly_root nsym 0 (by omega))
    obtain ⟨hcwlen, hcwb, _⟩ := hspec0
    have hroots : ∀ i, i < nsym →
        evalR (chi 2 ^ i) ((rs_encode_msg gfD m (rs_generator_poly gfD nsym 0 2)).map chi)
          = 0 := by
      intro i hi
      exact (encode_msg_spec m (rs_generator_poly gfD nsym 0 2) nsym hglen
        (by omega) hmonic hgb hm (chi 2 ^ i) (rs_generator_poly_root nsym i hi)).2.2
    have hsynd := calc_syndromes_zero _ nsym hcwb hroots
    have hsmax : (rs_calc_syndromes gfD
        (rs_encode_msg gfD m (rs_generator_poly gfD nsym 0 2)) nsym 0 2).foldl max 0
        = 0 := by
      rw [hsynd]
      exact foldl_max_replicate_zero _
    have hclean := correct_msg_clean _ nsym (by omega) hsmax
    have hsplit : msgSplit (rs_encode_msg gfD m (rs_generator_poly gfD nsym 0 2)) nsym
        = (m, (encFold m (rs_generator_poly gfD nsym 0 2) m.length).drop m.length) := by
      rw [msgSplit, if_neg (by omega), hcwlen,
        show m.length + nsym - nsym = m.length from by omega,
        rs_encode_msg_eq_encFold, List.take_left, List.drop_left]
    rw [hsplit] at hclean
    rw [henc]
    rw [RSCodec_decode_single _ nsym (by omega) (by omega) _ _ hclean]
    rw [← rs_encode_msg_eq_encFold]

theorem clean_roundtrip_witness :
    (2 ≤ 10 ∧ 10 ≤ 32 ∧ ([1, 2, 3, 4] : List ℕ).length + 10 ≤ 255 ∧
      (∀ v ∈ ([1, 2, 3, 4] : List ℕ), v < 256)) ∧
    RSCodec_decode gfD 10 255 0 2 (RSCodec_encode gfD 10 255 0 2 [1, 2, 3, 4]) [] false
      = .ok ([1, 2, 3, 4], RSCodec_encode gfD 10 255 0 2 [1, 2, 3, 4], []) :=
  ⟨⟨by norm_num, by norm_num, by norm_num, by decide⟩,
   clean_roundtrip 10 [1, 2, 3, 4] (by norm_num) (by norm_num) (by norm_num) (by decide)⟩

end Creedsolo
